import Mathlib

/-!
# DEC RX01 micro-engine (`src/devices/cpu/rx01/rx01.cpp`)

A shallow embedding of `rx01_cpu_device`: the register file, the multiplexer
`mux_out`, the branch-condition evaluator `test_condition`, `device_reset`, and the
body of the `while (m_icount > 0)` loop of `execute_run`.

Machine integers are natural numbers.  A truncation `% 2^w` is written wherever the
C++ assignment can really wrap (`m_cntr++`, the shift of `m_sr`); the other
assignments are already masked by the source to a value that fits the register.
Octal literals are kept as in the source (`0o74` is `074`).
-/

namespace RX01

/-- Modelled from the spec: the `BIT(x, n)` helper lives in a header that is not part
of the translated file; it yields bit `n` of `x`. -/
def BIT (x n : Nat) : Bool := x.testBit n

/-- Modelled from the spec: `read_byte` of a memory cache (`read(address) -> byte`).
A memory is a total map from addresses to cell contents; the result is a `u8`. -/
def read_byte (mem : Nat → Nat) (a : Nat) : Nat := mem a % 256

/-- Modelled from the spec: `write_byte` of a memory cache
(`write(address, value: byte)`): only the addressed cell changes. -/
def write_byte (mem : Nat → Nat) (a v : Nat) : Nat → Nat :=
  fun x => if x = a then v % 256 else mem x

/-- The members of `rx01_cpu_device` that `execute_run` reads or writes, together
with the scratchpad RAM (`sp`, reached through `m_sp_cache`).  The instruction store
is read-only and is passed separately. -/
structure State where
  m_pc : Nat
  m_ppc : Nat
  m_mb : Nat
  m_br_condition : Bool
  m_inst_disable : Bool
  m_inst_repeat : Bool
  m_cntr : Nat
  m_sr : Nat
  m_spar : Nat
  m_bar : Nat
  m_crc : Nat
  m_flag : Bool
  m_icount : Int
  sp : Nat → Nat

/-- The register values set by the constructor's initialiser list, over a scratchpad
whose cells are all zero. -/
def State.init : State :=
  { m_pc := 0, m_ppc := 0, m_mb := 0, m_br_condition := false, m_inst_disable := false,
    m_inst_repeat := false, m_cntr := 0, m_sr := 0, m_spar := 0, m_bar := 0, m_crc := 0,
    m_flag := false, m_icount := 0, sp := fun _ => 0 }

/-- `rx01_cpu_device::device_reset` (lines 96-108). -/
def device_reset (s : State) : State :=
  { s with
    m_pc := 0
    m_mb := 0
    m_inst_disable := false
    m_inst_repeat := false
    m_bar := 0
    m_cntr := 0
    m_sr := 0
    m_spar := 0
    m_flag := false }

/-- `rx01_cpu_device::mux_out` (lines 110-113). -/
def mux_out (inst : Nat → Nat) (s : State) : Nat :=
  if BIT s.m_mb 0 then read_byte s.sp s.m_spar else read_byte inst s.m_pc

/-- `rx01_cpu_device::test_condition` (lines 115-135); the `LOG` of the default case
has no effect on the state. -/
def test_condition (s : State) : Bool :=
  if s.m_mb &&& 0o74 = 0o20 then BIT s.m_sr 7
  else if s.m_mb &&& 0o74 = 0o24 then s.m_cntr == 0o377
  else if s.m_mb &&& 0o74 = 0o30 then BIT s.m_crc 0
  else if s.m_mb &&& 0o74 = 0o74 then s.m_flag
  else true

/-- The `if (m_inst_disable)` arm of `execute_run` (lines 143-151): the deferred
program-counter update.  `mux_out` is evaluated with the old `m_pc`. -/
def deferred_update (inst : Nat → Nat) (s : State) : State :=
  { s with
    m_pc :=
      if s.m_mb &&& 0o302 = 0o202 then
        ((s.m_mb &&& 0o74) <<< 6) ||| mux_out inst s
      else if BIT s.m_mb 6 && s.m_br_condition then
        ((s.m_pc + 1) &&& 0o7400) ||| mux_out inst s
      else
        (s.m_pc + 1) &&& 0o7777
    m_inst_disable := false
    m_inst_repeat := false }

/-- The `if (!m_inst_repeat)` block of `execute_run` (lines 155-162): the fetch.
`debugger_instruction_hook` does not touch the device state. -/
def fetch (inst : Nat → Nat) (s : State) : State :=
  { s with
    m_ppc := s.m_pc
    m_mb := read_byte inst s.m_pc
    m_pc := (s.m_pc + 1) &&& 0o3777 }

/-- The decode of `m_mb` in `execute_run` (lines 164-218). -/
def decode (inst : Nat → Nat) (s : State) : State :=
  if BIT s.m_mb 6 then
    if BIT s.m_mb 7 then
      { s with
        m_br_condition := (test_condition s == BIT s.m_mb 1)
        m_inst_disable := (s.m_cntr == 0o377) || (test_condition s == BIT s.m_mb 1)
        m_inst_repeat := (s.m_cntr != 0o377) && !(test_condition s == BIT s.m_mb 1)
        m_cntr := (s.m_cntr + 1) % 256 }
    else
      { s with
        m_br_condition := (test_condition s == BIT s.m_mb 1)
        m_inst_disable := true }
  else if BIT s.m_mb 7 then
    if BIT s.m_mb 1 then
      { s with m_inst_disable := true }
    else
      { s with m_spar := (s.m_mb &&& 0o74) >>> 2 }
  else if s.m_mb &&& 0o74 = 0o44 then
    if BIT s.m_mb 1 then
      { s with m_bar := (s.m_bar + 1) &&& 0o7777 }
    else
      { s with m_bar := if BIT s.m_mb 0 then 0 else 0o6000 }
  else if s.m_mb &&& 0o74 = 0o60 then
    { s with m_flag := (!BIT s.m_mb 0 && s.m_flag) || (BIT s.m_mb 1 && !s.m_flag) }
  else if s.m_mb &&& 0o74 = 0o64 then
    { s with sp := write_byte s.sp s.m_spar s.m_sr }
  else if s.m_mb &&& 0o74 = 0o70 then
    { s with
      m_cntr := if BIT s.m_mb 1 then (s.m_cntr + 1) % 256 else mux_out inst s
      m_inst_disable := !BIT s.m_mb 0 }
  else if s.m_mb &&& 0o74 = 0o74 then
    { s with
      m_sr :=
        if s.m_mb &&& 3 = 1 then s.m_cntr
        else ((s.m_sr <<< 1) ||| (if BIT s.m_mb 0 then 0 else (BIT s.m_mb 1).toNat)) % 256 }
  else
    s

/-- The else-arm of `execute_run` (lines 153-219): fetch unless a repeat is pending,
then decode. -/
def fetch_decode (inst : Nat → Nat) (s : State) : State :=
  decode inst (if !s.m_inst_repeat then fetch inst s else s)

/-- One iteration of the `while (m_icount > 0)` loop of `execute_run`
(lines 141-221), the closing `m_icount--` included. -/
def cycle (inst : Nat → Nat) (s : State) : State :=
  let t := if s.m_inst_disable then deferred_update inst s else fetch_decode inst s
  { t with m_icount := t.m_icount - 1 }

/-- `n` successive iterations of the loop body. -/
def cycles (inst : Nat → Nat) : Nat → State → State
  | 0, s => s
  | n + 1, s => cycles inst n (cycle inst s)

/-- The loop of `execute_run` with explicit fuel. -/
def execute_loop (inst : Nat → Nat) : Nat → State → State
  | 0, s => s
  | n + 1, s => if s.m_icount > 0 then execute_loop inst n (cycle inst s) else s

/-- `rx01_cpu_device::execute_run` (lines 137-223): the budget `m_icount` bounds the
number of iterations, so it is enough fuel. -/
def execute_run (inst : Nat → Nat) (s : State) : State :=
  execute_loop inst s.m_icount.toNat s

/-- The control word a fetch/decode cycle decodes: the held `m_mb` in a repeat
cycle, the freshly fetched byte otherwise. -/
def decoded_word (inst : Nat → Nat) (s : State) : Nat :=
  if s.m_inst_repeat then s.m_mb else read_byte inst s.m_pc

/-- The program of the end-to-end scenario: `0x92` at address 0, `0x20` at 1. -/
def jump_program : Nat → Nat :=
  fun a => if a = 0 then 0x92 else if a = 1 then 0x20 else 0

/-- A memory access of one loop iteration: which space, and at which address. -/
inductive Access where
  | inst_read (a : Nat)
  | sp_read (a : Nat)
  | sp_write (a : Nat)

/-- An access is in range when it addresses one of the 4096 instruction bytes
(12-bit program space) or one of the 16 scratchpad cells (4-bit data space). -/
def Access.in_range : Access → Bool
  | .inst_read a => decide (a < 4096)
  | .sp_read a => decide (a < 16)
  | .sp_write a => decide (a < 16)

/-- The `read_byte` call made by `mux_out` (line 112). -/
def mux_out_access (s : State) : Access :=
  if BIT s.m_mb 0 then .sp_read s.m_spar else .inst_read s.m_pc

/-- The memory accesses of the decode (lines 164-218): the `write_byte` of case 064
and the `mux_out` of case 070. -/
def decode_accesses (s : State) : List Access :=
  if BIT s.m_mb 6 then []
  else if BIT s.m_mb 7 then []
  else if s.m_mb &&& 0o74 = 0o44 then []
  else if s.m_mb &&& 0o74 = 0o60 then []
  else if s.m_mb &&& 0o74 = 0o64 then [.sp_write s.m_spar]
  else if s.m_mb &&& 0o74 = 0o70 then
    if BIT s.m_mb 1 then [] else [mux_out_access s]
  else []

/-- The memory accesses one loop iteration of `execute_run` performs on state `s`,
in program order: the `mux_out` of a deferred jump or taken branch (lines 144, 146),
the fetch (line 160), then those of the decode. -/
def cycle_accesses (inst : Nat → Nat) (s : State) : List Access :=
  if s.m_inst_disable then
    if s.m_mb &&& 0o302 = 0o202 then [mux_out_access s]
    else if BIT s.m_mb 6 && s.m_br_condition then [mux_out_access s]
    else []
  else if !s.m_inst_repeat then .inst_read s.m_pc :: decode_accesses (fetch inst s)
  else decode_accesses s

/-- Whether the loop iteration run on `s` executes the `write_byte` of case 064
(line 197) on scratchpad cell `a`. -/
def stores_to (inst : Nat → Nat) (s : State) (a : Nat) : Bool :=
  !s.m_inst_disable && !BIT (decoded_word inst s) 6 && !BIT (decoded_word inst s) 7 &&
    decide (decoded_word inst s &&& 0o74 = 0o64) && decide (s.m_spar = a)

/-- A program whose every byte is `b`. -/
def const_program (b : Nat) : Nat → Nat := fun _ => b

/-- A taken in-page branch pending at the last byte of page 0. -/
def page_edge_state : State :=
  { State.init with m_pc := 0xFF, m_mb := 0x40, m_inst_disable := true, m_br_condition := true }

/-- A taken in-page branch pending in the middle of page 3. -/
def page_mid_state : State := { page_edge_state with m_pc := 0x310 }

/-- A fetch state whose flag is set. -/
def flag_set_state : State := { State.init with m_flag := true }

/-- A fetch state whose program counter is in the upper bank. -/
def upper_bank_state : State := { State.init with m_pc := 0x800 }

/-- A state whose previous-PC shadow and CRC register are not zero. -/
def dirty_state : State := { State.init with m_ppc := 5, m_crc := 1 }

/-- A fetch state holding `0x5A` in the shift register and addressing cell 3. -/
def store_state : State := { State.init with m_sr := 0x5A, m_spar := 3 }

/-- A store (`0x34`) at address 0 followed by scratchpad-sourced counter loads
(`0x39`). -/
def store_load_program : Nat → Nat := fun a => if a = 0 then 0x34 else 0x39

/-- A state for each row of the condition table: the field of `m_mb` selects the
condition, and the selected signal is asserted. -/
def condition_state (field : Nat) : State :=
  { State.init with m_mb := field, m_sr := 0x80, m_cntr := 0xFF, m_crc := 1, m_flag := true }

/-- A fetch state with a budget of three cycles. -/
def budget_state : State := { State.init with m_icount := 3 }

/-- A fetch state with distinct counter and shift-register contents. -/
def load_state : State := { State.init with m_cntr := 0x42, m_sr := 0xC1 }

/-- An immediate counter load (`0x38`) at address 0 followed by operand bytes
`0x77`. -/
def counter_load_program : Nat → Nat := fun a => if a = 0 then 0x38 else 0x77

/-- Two states agree on every register and scratchpad cell other than the
previous-PC shadow `m_ppc` and the cycle budget. -/
def agree_except_ppc (s t : State) : Prop :=
  s.m_pc = t.m_pc ∧ s.m_mb = t.m_mb ∧ s.m_br_condition = t.m_br_condition ∧
  s.m_inst_disable = t.m_inst_disable ∧ s.m_inst_repeat = t.m_inst_repeat ∧
  s.m_cntr = t.m_cntr ∧ s.m_sr = t.m_sr ∧ s.m_spar = t.m_spar ∧ s.m_bar = t.m_bar ∧
  s.m_crc = t.m_crc ∧ s.m_flag = t.m_flag ∧ s.sp = t.sp

/-- The pipeline flags are consistent: a pending deferred update excludes a pending
repeat, and a pending repeat holds a conditional-loop word. -/
def flags_ok (s : State) : Prop :=
  (s.m_inst_disable = true → s.m_inst_repeat = false) ∧
  (s.m_inst_repeat = true → BIT s.m_mb 6 = true ∧ BIT s.m_mb 7 = true)

/-- The reset state with a different previous-PC shadow. -/
def ppc_marked_state : State := { State.init with m_ppc := 5 }

/-- A repeat pending on the loop word `0xC0`. -/
def repeat_state : State := { State.init with m_mb := 0xC0, m_inst_repeat := true, m_pc := 9 }

/-! ## Bit-level helper lemmas -/

theorem bit_of_and_eq {x m v : Nat} (h : x &&& m = v) (n : Nat) (hm : m.testBit n = true) :
    BIT x n = v.testBit n := by
  have h1 := congrArg (fun y => Nat.testBit y n) h
  simp only [Nat.testBit_and, hm, Bool.and_true] at h1
  exact h1

theorem and_3777 (x : Nat) : x &&& 0o3777 = x % 2048 :=
  Nat.and_pow_two_sub_one_eq_mod x 11

theorem and_7777 (x : Nat) : x &&& 0o7777 = x % 4096 :=
  Nat.and_pow_two_sub_one_eq_mod x 12

/-- Masking with a run of `b` ones that starts at bit `a` keeps the digits
`a .. a + b - 1` in place. -/
theorem and_shifted_mask (x a b : Nat) :
    x &&& (2 ^ a * (2 ^ b - 1)) = (x / 2 ^ a % 2 ^ b) * 2 ^ a := by
  apply Nat.eq_of_testBit_eq
  intro i
  rw [Nat.testBit_and, Nat.testBit_mul_pow_two, Nat.testBit_two_pow_sub_one,
    Nat.mul_comm (x / 2 ^ a % 2 ^ b) (2 ^ a), Nat.testBit_mul_pow_two,
    Nat.testBit_mod_two_pow, ← Nat.shiftRight_eq_div_pow, Nat.testBit_shiftRight]
  by_cases ha : a ≤ i
  · have e : a + (i - a) = i := by omega
    simp [ha, e, Bool.and_comm]
  · simp [ha]

theorem and_7400 (x : Nat) : x &&& 0o7400 = (x / 256 % 16) * 256 :=
  and_shifted_mask x 8 4

theorem and_74 (x : Nat) : x &&& 0o74 = (x / 4 % 16) * 4 :=
  and_shifted_mask x 2 4

theorem or_byte (k b : Nat) (hb : b < 256) : (k * 256) ||| b = k * 256 + b := by
  have h := Nat.mul_add_lt_is_or (i := 8) hb k
  simp at h
  rw [Nat.mul_comm]
  exact h.symm

theorem read_byte_lt (mem : Nat → Nat) (a : Nat) : read_byte mem a < 256 :=
  Nat.mod_lt _ (by decide)

theorem mux_out_lt (inst : Nat → Nat) (s : State) : mux_out inst s < 256 := by
  unfold mux_out
  split
  · exact read_byte_lt _ _
  · exact read_byte_lt _ _

/-- With bit 6 of the control word set, the absolute-jump pattern does not match. -/
theorem not_jump_of_bit6 {x : Nat} (h6 : BIT x 6 = true) : ¬ (x &&& 0o302 = 0o202) := by
  intro h
  have h' := bit_of_and_eq h 6 (by decide)
  rw [h6] at h'
  exact absurd h' (by decide)

/-- The program counter a taken in-page branch leaves behind (line 146). -/
theorem deferred_branch_pc (inst : Nat → Nat) (s : State)
    (hd : s.m_inst_disable = true) (h6 : BIT s.m_mb 6 = true)
    (hb : s.m_br_condition = true) :
    (cycle inst s).m_pc = ((s.m_pc + 1) &&& 0o7400) ||| mux_out inst s := by
  have hj := not_jump_of_bit6 h6
  have hj2 : ¬ (s.m_mb &&& 194 = 130) := hj
  simp [cycle, deferred_update, hd, h6, hb, hj2]

/-- The decode never writes the program counter. -/
theorem decode_pc (inst : Nat → Nat) (s : State) : (decode inst s).m_pc = s.m_pc := by
  unfold decode
  repeat' split
  all_goals rfl

/-- A cycle that starts with both pipeline flags clear is a fetch: it leaves the
program counter at the successor of the old one, within the low 11 bits. -/
theorem plain_fetch_pc (inst : Nat → Nat) (s : State)
    (hd : s.m_inst_disable = false) (hr : s.m_inst_repeat = false) :
    (cycle inst s).m_pc = (s.m_pc + 1) % 2048 := by
  simp [cycle, fetch_decode, hd, hr, decode_pc, fetch, and_3777]

theorem cycles_succ (inst : Nat → Nat) (n : Nat) (s : State) :
    cycles inst (n + 1) s = cycles inst n (cycle inst s) := rfl

theorem cycles_succ_outer (inst : Nat → Nat) (n : Nat) (s : State) :
    cycles inst (n + 1) s = cycle inst (cycles inst n s) := by
  induction n generalizing s with
  | zero => rfl
  | succ k ih => rw [cycles_succ, ih, cycles_succ]

/-- Plain-fetch progression from a program counter in the lower bank. -/
theorem fetch_run_low_bank (inst : Nat → Nat) (n : Nat) :
    ∀ s : State, s.m_pc < 2048 →
      (∀ i, i < n → (cycles inst i s).m_inst_disable = false ∧
        (cycles inst i s).m_inst_repeat = false) →
      (cycles inst n s).m_pc = (s.m_pc + n) % 2048 := by
  induction n with
  | zero =>
    intro s hs _
    simp only [cycles, Nat.add_zero]
    omega
  | succ k ih =>
    intro s _ h
    have h0 := h 0 (Nat.succ_pos k)
    have hstep := plain_fetch_pc inst s h0.1 h0.2
    have hlt : (cycle inst s).m_pc < 2048 := by rw [hstep]; omega
    have hrest : ∀ i, i < k → (cycles inst i (cycle inst s)).m_inst_disable = false ∧
        (cycles inst i (cycle inst s)).m_inst_repeat = false := by
      intro i hi
      exact h (i + 1) (Nat.succ_lt_succ hi)
    rw [cycles_succ, ih (cycle inst s) hlt hrest, hstep]
    omega

/-- The registers used as addresses (and the buffer address register) fit their
widths. -/
theorem decode_addr_bounds (inst : Nat → Nat) (s : State)
    (h : s.m_spar < 16 ∧ s.m_bar < 4096) :
    (decode inst s).m_spar < 16 ∧ (decode inst s).m_bar < 4096 := by
  have hand : s.m_mb &&& 0o74 ≤ 0o74 := Nat.and_le_right
  have hbar : (s.m_bar + 1) &&& 0o7777 ≤ 0o7777 := Nat.and_le_right
  have hsh : (s.m_mb &&& 0o74) >>> 2 = (s.m_mb &&& 0o74) / 4 := Nat.shiftRight_eq_div_pow _ 2
  unfold decode
  repeat' split
  all_goals first
    | exact h
    | (dsimp only; omega)

theorem deferred_update_pc_lt (inst : Nat → Nat) (s : State) :
    (deferred_update inst s).m_pc < 4096 := by
  have hm := mux_out_lt inst s
  have hm2 : mux_out inst s < 2 ^ 12 := by omega
  have hand : s.m_mb &&& 0o74 ≤ 0o74 := Nat.and_le_right
  have h1 : (s.m_mb &&& 0o74) <<< 6 < 2 ^ 12 := by
    rw [Nat.shiftLeft_eq]
    omega
  have h2 : (s.m_pc + 1) &&& 0o7400 < 2 ^ 12 :=
    Nat.lt_of_le_of_lt Nat.and_le_right (by decide)
  have h3 : (s.m_pc + 1) &&& 0o7777 < 2 ^ 12 :=
    Nat.lt_of_le_of_lt Nat.and_le_right (by decide)
  unfold deferred_update
  dsimp only
  split
  · exact Nat.or_lt_two_pow h1 hm2
  · split
    · exact Nat.or_lt_two_pow h2 hm2
    · exact h3

/-- One loop iteration preserves the width bounds of `m_pc`, `m_spar` and `m_bar`. -/
theorem cycle_addr_bounds (inst : Nat → Nat) (s : State)
    (h : s.m_pc < 4096 ∧ s.m_spar < 16 ∧ s.m_bar < 4096) :
    (cycle inst s).m_pc < 4096 ∧ (cycle inst s).m_spar < 16 ∧
      (cycle inst s).m_bar < 4096 := by
  obtain ⟨hpc, hsp, hbar⟩ := h
  cases hd : s.m_inst_disable
  · have hfb : (fetch inst s).m_spar < 16 ∧ (fetch inst s).m_bar < 4096 := ⟨hsp, hbar⟩
    have hfpc : (fetch inst s).m_pc < 4096 := by
      have : (s.m_pc + 1) &&& 0o3777 ≤ 0o3777 := Nat.and_le_right
      simp only [fetch]
      omega
    cases hr : s.m_inst_repeat
    · have hb := decode_addr_bounds inst (fetch inst s) hfb
      simpa [cycle, fetch_decode, hd, hr, decode_pc] using ⟨hfpc, hb⟩
    · have hb := decode_addr_bounds inst s ⟨hsp, hbar⟩
      simpa [cycle, fetch_decode, hd, hr, decode_pc] using ⟨hpc, hb⟩
  · have hp := deferred_update_pc_lt inst s
    simp only [cycle, hd, if_true]
    exact ⟨hp, hsp, hbar⟩

theorem mux_out_access_in_range (s : State) (hpc : s.m_pc < 4096) (hsp : s.m_spar < 16) :
    (mux_out_access s).in_range = true := by
  unfold mux_out_access
  split <;> simp [Access.in_range, hpc, hsp]

theorem decode_accesses_in_range (s : State) (hpc : s.m_pc < 4096) (hsp : s.m_spar < 16) :
    ∀ a ∈ decode_accesses s, a.in_range = true := by
  have hm := mux_out_access_in_range s hpc hsp
  unfold decode_accesses
  repeat' split
  all_goals intro a ha
  all_goals simp only [List.mem_singleton, List.not_mem_nil] at ha
  all_goals subst ha
  · simp [Access.in_range, hsp]
  · exact hm

theorem cycle_accesses_in_range (inst : Nat → Nat) (s : State)
    (hpc : s.m_pc < 4096) (hsp : s.m_spar < 16) :
    ∀ a ∈ cycle_accesses inst s, a.in_range = true := by
  have hm := mux_out_access_in_range s hpc hsp
  have hfpc : (fetch inst s).m_pc < 4096 := by
    have : (s.m_pc + 1) &&& 0o3777 ≤ 0o3777 := Nat.and_le_right
    simp only [fetch]
    omega
  have hdf := decode_accesses_in_range (fetch inst s) hfpc hsp
  have hds := decode_accesses_in_range s hpc hsp
  unfold cycle_accesses
  repeat' split
  · simp [hm]
  · simp [hm]
  · simp
  · intro a ha
    rcases List.mem_cons.mp ha with rfl | ha
    · simp [Access.in_range, hpc]
    · exact hdf a ha
  · exact hds

/-- With bits 6 and 7 clear and a field outside the five implemented ones the decode
reaches the `default` label and returns the state as it was. -/
theorem decode_unimplemented (inst : Nat → Nat) (s : State)
    (h6 : BIT s.m_mb 6 = false) (h7 : BIT s.m_mb 7 = false)
    (h44 : s.m_mb &&& 0o74 ≠ 0o44) (h60 : s.m_mb &&& 0o74 ≠ 0o60)
    (h64 : s.m_mb &&& 0o74 ≠ 0o64) (h70 : s.m_mb &&& 0o74 ≠ 0o70)
    (h74 : s.m_mb &&& 0o74 ≠ 0o74) : decode inst s = s := by
  simp only [decode, h6, h7, Bool.false_eq_true, if_false]
  rw [if_neg h44, if_neg h60, if_neg h64, if_neg h70, if_neg h74]

/-- The scratchpad after a decode: written only by case 064. -/
theorem decode_sp (inst : Nat → Nat) (s : State) :
    (decode inst s).sp =
      if BIT s.m_mb 6 = false ∧ BIT s.m_mb 7 = false ∧ s.m_mb &&& 0o74 = 0o64 then
        write_byte s.sp s.m_spar s.m_sr
      else s.sp := by
  unfold decode
  by_cases h6 : BIT s.m_mb 6 = true
  · simp [h6]
    split <;> rfl
  · by_cases h7 : BIT s.m_mb 7 = true
    · simp [h6, h7]
      split <;> rfl
    · simp only [h6, h7, if_false]
      by_cases h44 : s.m_mb &&& 0o74 = 0o44
      · simp [h44]
        split <;> rfl
      · by_cases h60 : s.m_mb &&& 0o74 = 0o60
        · simp [h60]
        · by_cases h64 : s.m_mb &&& 0o74 = 0o64
          · simp [h64, h6, h7]
          · by_cases h70 : s.m_mb &&& 0o74 = 0o70
            · simp [h70]
            · by_cases h74 : s.m_mb &&& 0o74 = 0o74
              · simp [h74]
              · simp [h44, h60, h64, h70, h74]

/-- The control word the decode of a fetch/decode cycle works on. -/
theorem fetch_decode_word (inst : Nat → Nat) (s : State) :
    (if !s.m_inst_repeat then fetch inst s else s).m_mb = decoded_word inst s := by
  cases hr : s.m_inst_repeat <;> simp [decoded_word, fetch, hr]

/-- A cycle that does not execute the store of case 064 on cell `a` leaves that cell
as it was. -/
theorem cycle_sp_of_not_store (inst : Nat → Nat) (s : State) (a : Nat)
    (h : stores_to inst s a = false) : (cycle inst s).sp a = s.sp a := by
  cases hd : s.m_inst_disable
  · have hw := fetch_decode_word inst s
    have hsp : (if !s.m_inst_repeat then fetch inst s else s).sp = s.sp := by
      cases hr : s.m_inst_repeat <;> simp [fetch, hr]
    have hspar : (if !s.m_inst_repeat then fetch inst s else s).m_spar = s.m_spar := by
      cases hr : s.m_inst_repeat <;> simp [fetch, hr]
    have hcyc : (cycle inst s).sp =
        (decode inst (if !s.m_inst_repeat then fetch inst s else s)).sp := by
      simp [cycle, fetch_decode, hd]
    rw [hcyc, decode_sp, hw, hsp, hspar]
    split
    · rename_i hc
      obtain ⟨h6, h7, hf⟩ := hc
      have hne : s.m_spar ≠ a := by
        intro heq
        simp [stores_to, hd, h6, h7, hf, heq] at h
      have hne2 : a ≠ s.m_spar := fun e => hne e.symm
      simp [write_byte, hne2]
    · rfl
  · simp [cycle, deferred_update, hd]

/-- A run of cycles none of which stores to cell `a` leaves that cell as it was. -/
theorem cycles_sp_of_not_store (inst : Nat → Nat) (a : Nat) (n : Nat) :
    ∀ s : State, (∀ i, i < n → stores_to inst (cycles inst i s) a = false) →
      (cycles inst n s).sp a = s.sp a := by
  induction n with
  | zero => intro s _; rfl
  | succ k ih =>
    intro s h
    have h0 := h 0 (Nat.succ_pos k)
    have hrest : ∀ i, i < k → stores_to inst (cycles inst i (cycle inst s)) a = false := by
      intro i hi
      exact h (i + 1) (Nat.succ_lt_succ hi)
    rw [cycles_succ, ih (cycle inst s) hrest]
    exact cycle_sp_of_not_store inst s a h0

/-- C1. Two-cycle absolute jump: from a state with both pipeline flags clear whose
program counter addresses a control word `MB` with `(MB & 0xC2) == 0x82`, two cycles
leave `PC == ((MB & 0x3C) << 6) | B`, `B` being the scratchpad cell at `SPAR` when
bit 0 of `MB` is set and the instruction byte at `(PC0 + 1) & 0x7FF` otherwise.  The
right-hand side mentions the prior program counter only inside `B` and `MB`; the bound
`PC0 < 4096` is not needed. -/
theorem two_cycle_absolute_jump (inst : Nat → Nat) (s : State)
    (hd : s.m_inst_disable = false) (hr : s.m_inst_repeat = false)
    (hmb : read_byte inst s.m_pc &&& 0xC2 = 0x82) :
    (cycles inst 2 s).m_pc =
      ((read_byte inst s.m_pc &&& 0x3C) <<< 6) |||
        (if BIT (read_byte inst s.m_pc) 0 then read_byte s.sp s.m_spar
         else read_byte inst ((s.m_pc + 1) &&& 0x7FF)) := by
  have h6 : BIT (read_byte inst s.m_pc) 6 = false := bit_of_and_eq hmb 6 (by decide)
  have h7 : BIT (read_byte inst s.m_pc) 7 = true := bit_of_and_eq hmb 7 (by decide)
  have h1 : BIT (read_byte inst s.m_pc) 1 = true := bit_of_and_eq hmb 1 (by decide)
  have hmb2 : read_byte inst s.m_pc &&& 194 = 130 := hmb
  simp [cycles, cycle, fetch_decode, fetch, decode, deferred_update, mux_out, hd, hr,
    h6, h7, h1, hmb2]

/-- C1 witness: the end-to-end scenario of the specification, from reset. -/
theorem two_cycle_absolute_jump_witness :
    (device_reset State.init).m_inst_disable = false ∧
    (device_reset State.init).m_inst_repeat = false ∧
    read_byte jump_program (device_reset State.init).m_pc &&& 0xC2 = 0x82 ∧
    (cycles jump_program 2 (device_reset State.init)).m_pc = 0x0420 :=
  ⟨rfl, rfl, by decide,
    (two_cycle_absolute_jump jump_program (device_reset State.init) rfl rfl
      (by decide)).trans (by decide)⟩

/-- The statement of C2 fails at `page_edge_state`: the pending branch sits at
`PC = 0x0FF`, page bits `P = 0`, multiplexed byte `B = 0`, and the cycle leaves
`PC = 0x100`, not `P | B = 0`. -/
theorem in_page_branch_page_counterexample :
    page_edge_state.m_inst_disable = true ∧ BIT page_edge_state.m_mb 6 = true ∧
    page_edge_state.m_br_condition = true ∧
    (cycle (const_program 0) page_edge_state).m_pc ≠
      (page_edge_state.m_pc &&& 0xF00) ||| mux_out (const_program 0) page_edge_state := by
  decide

/-- C2, amended. A taken in-page branch leaves `PC == ((PC + 1) & 0x0F00) | B`:
bits 0-7 of the new PC are the multiplexed byte `B`, bits 8-11 are those of the
incremented pre-branch PC, and they are the page bits `P` of the pre-branch PC itself
(so that `PC == P | B`) whenever its low byte is not `0xFF`. -/
theorem in_page_branch (inst : Nat → Nat) (s : State)
    (hd : s.m_inst_disable = true) (h6 : BIT s.m_mb 6 = true)
    (hb : s.m_br_condition = true) :
    (cycle inst s).m_pc = ((s.m_pc + 1) &&& 0xF00) ||| mux_out inst s ∧
    (cycle inst s).m_pc % 256 = mux_out inst s ∧
    (cycle inst s).m_pc / 256 = (s.m_pc + 1) / 256 % 16 ∧
    (s.m_pc % 256 ≠ 255 →
      (cycle inst s).m_pc = (s.m_pc &&& 0xF00) ||| mux_out inst s) := by
  have hpc := deferred_branch_pc inst s hd h6 hb
  have hm := mux_out_lt inst s
  have e2 : s.m_pc &&& 0xF00 = (s.m_pc / 256 % 16) * 256 := and_7400 _
  refine ⟨hpc, ?_, ?_, ?_⟩
  · rw [hpc, and_7400, or_byte _ _ hm]
    omega
  · rw [hpc, and_7400, or_byte _ _ hm]
    omega
  · intro hlow
    rw [hpc, e2, and_7400]
    have : (s.m_pc + 1) / 256 % 16 = s.m_pc / 256 % 16 := by omega
    rw [this]

/-- C2 witness: a taken branch pending at `PC = 0x310` over a program of sevens. -/
theorem in_page_branch_witness :
    page_mid_state.m_inst_disable = true ∧ BIT page_mid_state.m_mb 6 = true ∧
    page_mid_state.m_br_condition = true ∧ page_mid_state.m_pc % 256 ≠ 255 ∧
    (cycle (const_program 7) page_mid_state).m_pc =
      (page_mid_state.m_pc &&& 0xF00) ||| mux_out (const_program 7) page_mid_state :=
  ⟨rfl, by decide, rfl, by decide,
    (in_page_branch (const_program 7) page_mid_state rfl (by decide) rfl).2.2.2
      (by decide)⟩

/-- The statement of C3 fails for the pattern (bit0, bit1) = (1, 1) when the flag is
set: decoding `0x33` clears the flag instead of leaving it set. -/
theorem flag_truth_table_counterexample :
    flag_set_state.m_inst_disable = false ∧
    BIT (decoded_word (const_program 0x33) flag_set_state) 6 = false ∧
    BIT (decoded_word (const_program 0x33) flag_set_state) 7 = false ∧
    decoded_word (const_program 0x33) flag_set_state &&& 0x3C = 0x30 ∧
    BIT (decoded_word (const_program 0x33) flag_set_state) 0 = true ∧
    BIT (decoded_word (const_program 0x33) flag_set_state) 1 = true ∧
    (cycle (const_program 0x33) flag_set_state).m_flag = false := by
  decide

/-- C3, amended. Decoding a control word with bits 6 and 7 clear and field `0x30`
leaves the flag unchanged for (bit0, bit1) = (0, 0), false for (1, 0), true for
(0, 1), and toggled for (1, 1). -/
theorem flag_truth_table (inst : Nat → Nat) (s : State)
    (hd : s.m_inst_disable = false)
    (h6 : BIT (decoded_word inst s) 6 = false)
    (h7 : BIT (decoded_word inst s) 7 = false)
    (hf : decoded_word inst s &&& 0x3C = 0x30) :
    (cycle inst s).m_flag =
      match BIT (decoded_word inst s) 0, BIT (decoded_word inst s) 1 with
      | false, false => s.m_flag
      | true, false => false
      | false, true => true
      | true, true => !s.m_flag := by
  have hf2 : decoded_word inst s &&& 60 = 48 := hf
  cases hr : s.m_inst_repeat
  · simp [decoded_word, hr] at h6 h7 hf2 ⊢
    simp [cycle, fetch_decode, fetch, decode, hd, hr, h6, h7, hf2]
    generalize BIT (read_byte inst s.m_pc) 0 = b0
    generalize BIT (read_byte inst s.m_pc) 1 = b1
    generalize s.m_flag = f
    cases b0 <;> cases b1 <;> cases f <;> rfl
  · simp [decoded_word, hr] at h6 h7 hf2 ⊢
    simp [cycle, fetch_decode, fetch, decode, hd, hr, h6, h7, hf2]
    generalize BIT s.m_mb 0 = b0
    generalize BIT s.m_mb 1 = b1
    generalize s.m_flag = f
    cases b0 <;> cases b1 <;> cases f <;> rfl

/-- C3 witness: decoding `0x33` with the flag set. -/
theorem flag_truth_table_witness :
    flag_set_state.m_inst_disable = false ∧
    decoded_word (const_program 0x33) flag_set_state &&& 0x3C = 0x30 ∧
    (cycle (const_program 0x33) flag_set_state).m_flag = !flag_set_state.m_flag :=
  ⟨rfl, by decide,
    (flag_truth_table (const_program 0x33) flag_set_state rfl (by decide) (by decide)
      (by decide)).trans (by decide)⟩

/-- The statement of C4 fails at `upper_bank_state`: both flags are clear,
`PC = 0x800 < 4096` has bit 11 set, and the fetch leaves `PC = 1`, bit 11 clear. -/
theorem fetch_bank_bit_counterexample :
    upper_bank_state.m_inst_disable = false ∧ upper_bank_state.m_inst_repeat = false ∧
    upper_bank_state.m_pc < 4096 ∧
    BIT (fetch (const_program 0) upper_bank_state).m_pc 11 ≠ BIT upper_bank_state.m_pc 11 ∧
    BIT (cycle (const_program 0) upper_bank_state).m_pc 11 ≠ BIT upper_bank_state.m_pc 11 := by
  decide

/-- C4, amended. With both pipeline flags clear the fetch sets `PC` to
`(PC + 1) mod 2048` and the rest of the cycle leaves that value alone, so bit 11 of
`PC` is clear after the fetch; it equals bit 11 before the fetch when `PC < 2048`. -/
theorem fetch_bank_bit (inst : Nat → Nat) (s : State)
    (hd : s.m_inst_disable = false) (hr : s.m_inst_repeat = false) :
    (fetch inst s).m_pc = (s.m_pc + 1) % 2048 ∧
    (cycle inst s).m_pc = (fetch inst s).m_pc ∧
    BIT (fetch inst s).m_pc 11 = false ∧
    (s.m_pc < 2048 → BIT (fetch inst s).m_pc 11 = BIT s.m_pc 11) := by
  have hf : (fetch inst s).m_pc = (s.m_pc + 1) % 2048 := by simp [fetch, and_3777]
  have hb : BIT (fetch inst s).m_pc 11 = false := by
    rw [hf]
    exact Nat.testBit_lt_two_pow (Nat.mod_lt _ (by decide))
  refine ⟨hf, ?_, hb, ?_⟩
  · rw [plain_fetch_pc inst s hd hr, hf]
  · intro hlt
    rw [hb]
    exact (Nat.testBit_lt_two_pow hlt).symm

/-- C4 witness: the fetch at reset. -/
theorem fetch_bank_bit_witness :
    State.init.m_inst_disable = false ∧ State.init.m_inst_repeat = false ∧
    State.init.m_pc < 2048 ∧
    BIT (fetch (const_program 0) State.init).m_pc 11 = BIT State.init.m_pc 11 :=
  ⟨rfl, rfl, by decide,
    (fetch_bank_bit (const_program 0) State.init rfl rfl).2.2.2 (by decide)⟩

/-- The statement of C5 fails for `N = 0` at `upper_bank_state`: no cycle is run, so
`PC` is still `0x800`, which is not `(0x800 + 0) mod 2048 = 0`. -/
theorem plain_fetch_progression_counterexample :
    upper_bank_state.m_pc < 4096 ∧
    (∀ i, i < 0 → (cycles (const_program 0) i upper_bank_state).m_inst_disable = false ∧
      (cycles (const_program 0) i upper_bank_state).m_inst_repeat = false) ∧
    (cycles (const_program 0) 0 upper_bank_state).m_pc ≠ (upper_bank_state.m_pc + 0) % 2048 :=
  ⟨by decide, fun i hi => absurd hi (Nat.not_lt_zero i), by decide⟩

/-- C5, amended. If each of `N` consecutive cycles starts with both pipeline flags
clear, then `PC == (PC0 + N) mod 2048` afterwards, provided `N >= 1` or
`PC0 < 2048`. -/
theorem plain_fetch_progression (inst : Nat → Nat) (N : Nat) (s : State)
    (hN : 1 ≤ N ∨ s.m_pc < 2048)
    (h : ∀ i, i < N → (cycles inst i s).m_inst_disable = false ∧
      (cycles inst i s).m_inst_repeat = false) :
    (cycles inst N s).m_pc = (s.m_pc + N) % 2048 := by
  rcases hN with hN | hlow
  · obtain ⟨k, rfl⟩ : ∃ k, N = k + 1 := ⟨N - 1, by omega⟩
    have h0 := h 0 (Nat.succ_pos k)
    have hstep := plain_fetch_pc inst s h0.1 h0.2
    have hlt : (cycle inst s).m_pc < 2048 := by rw [hstep]; omega
    have hrest : ∀ i, i < k → (cycles inst i (cycle inst s)).m_inst_disable = false ∧
        (cycles inst i (cycle inst s)).m_inst_repeat = false := by
      intro i hi
      exact h (i + 1) (Nat.succ_lt_succ hi)
    rw [cycles_succ, fetch_run_low_bank inst k (cycle inst s) hlt hrest, hstep]
    omega
  · exact fetch_run_low_bank inst N s hlow h

/-- C5 witness: three fetches of the no-op word `0x00` from the upper bank. -/
theorem plain_fetch_progression_witness :
    (1 ≤ 3 ∨ upper_bank_state.m_pc < 2048) ∧
    (∀ i, i < 3 → (cycles (const_program 0) i upper_bank_state).m_inst_disable = false ∧
      (cycles (const_program 0) i upper_bank_state).m_inst_repeat = false) ∧
    (cycles (const_program 0) 3 upper_bank_state).m_pc = 3 :=
  have hflags : ∀ i, i < 3 →
      (cycles (const_program 0) i upper_bank_state).m_inst_disable = false ∧
      (cycles (const_program 0) i upper_bank_state).m_inst_repeat = false := by
    decide
  ⟨Or.inl (by decide), hflags,
    (plain_fetch_progression (const_program 0) 3 upper_bank_state (Or.inl (by decide))
      hflags).trans (by decide)⟩

/-- The statement of C6 fails at `dirty_state`: `device_reset` leaves the
previous-PC shadow at 5 and the CRC register at 1. -/
theorem reset_clears_counterexample :
    (device_reset dirty_state).m_ppc ≠ 0 ∧ (device_reset dirty_state).m_crc ≠ 0 := by
  decide

/-- C6, amended. After `device_reset` the registers PC, MB, InstDisable, InstRepeat,
CNTR, SR, SPAR, BAR and Flag are zero/false, while PPC, CRC, the stored branch-taken
flag, the cycle budget and the scratchpad contents are left as they were. -/
theorem reset_clears (s : State) :
    (device_reset s).m_pc = 0 ∧ (device_reset s).m_mb = 0 ∧
    (device_reset s).m_inst_disable = false ∧ (device_reset s).m_inst_repeat = false ∧
    (device_reset s).m_cntr = 0 ∧ (device_reset s).m_sr = 0 ∧
    (device_reset s).m_spar = 0 ∧ (device_reset s).m_bar = 0 ∧
    (device_reset s).m_flag = false ∧
    (device_reset s).m_ppc = s.m_ppc ∧ (device_reset s).m_crc = s.m_crc ∧
    (device_reset s).m_br_condition = s.m_br_condition ∧
    (device_reset s).m_icount = s.m_icount ∧
    (device_reset s).sp = s.sp :=
  ⟨rfl, rfl, rfl, rfl, rfl, rfl, rfl, rfl, rfl, rfl, rfl, rfl, rfl, rfl⟩

/-- C7. Addressing stays in range: in every state reached from a reset state by any
number of cycles, whatever the instruction store and the scratchpad hold,
`PC < 4096`, `SPAR < 16` and `BAR < 4096`, and every memory access of the next cycle
addresses the instruction store within `0..4095` and the scratchpad within
`0..15`. -/
theorem addressing_in_range (inst : Nat → Nat) (s0 : State) (n : Nat) :
    (cycles inst n (device_reset s0)).m_pc < 4096 ∧
    (cycles inst n (device_reset s0)).m_spar < 16 ∧
    (cycles inst n (device_reset s0)).m_bar < 4096 ∧
    ∀ a ∈ cycle_accesses inst (cycles inst n (device_reset s0)), a.in_range = true := by
  have hinv : (cycles inst n (device_reset s0)).m_pc < 4096 ∧
      (cycles inst n (device_reset s0)).m_spar < 16 ∧
      (cycles inst n (device_reset s0)).m_bar < 4096 := by
    induction n with
    | zero =>
      simp only [cycles, device_reset]
      omega
    | succ k ih =>
      rw [cycles_succ_outer]
      exact cycle_addr_bounds inst _ ih
  exact ⟨hinv.1, hinv.2.1, hinv.2.2, cycle_accesses_in_range inst _ hinv.1 hinv.2.1⟩

/-- The statement of C8 fails at the reset state over a program of zero bytes: the
cycle decodes `0x00` (bits 6 and 7 clear, field 0, not an implemented one) and the
fetch that precedes the decode advances `PC` from 0 to 1 and records PPC and MB. -/
theorem unimplemented_noop_counterexample :
    State.init.m_inst_disable = false ∧
    BIT (decoded_word (const_program 0) State.init) 6 = false ∧
    BIT (decoded_word (const_program 0) State.init) 7 = false ∧
    decoded_word (const_program 0) State.init &&& 0x3C ≠ 0x24 ∧
    decoded_word (const_program 0) State.init &&& 0x3C ≠ 0x30 ∧
    decoded_word (const_program 0) State.init &&& 0x3C ≠ 0x34 ∧
    decoded_word (const_program 0) State.init &&& 0x3C ≠ 0x38 ∧
    decoded_word (const_program 0) State.init &&& 0x3C ≠ 0x3C ∧
    (cycle (const_program 0) State.init).m_pc ≠ State.init.m_pc := by
  decide

/-- C8, amended. When a fetch/decode cycle decodes a control word with bits 6 and 7
clear and a field outside `{0x24, 0x30, 0x34, 0x38, 0x3C}`, the decode changes
nothing: the state after the cycle is the state after the fetch (the state itself in
a repeat cycle) with the cycle budget decreased by one.  So CNTR, SR, SPAR, BAR, CRC,
Flag, InstDisable, InstRepeat, the stored branch-taken flag and every scratchpad cell
are unchanged, and in a repeat cycle every register is. -/
theorem unimplemented_noop (inst : Nat → Nat) (s : State)
    (hd : s.m_inst_disable = false)
    (h6 : BIT (decoded_word inst s) 6 = false)
    (h7 : BIT (decoded_word inst s) 7 = false)
    (h24 : decoded_word inst s &&& 0x3C ≠ 0x24)
    (h30 : decoded_word inst s &&& 0x3C ≠ 0x30)
    (h34 : decoded_word inst s &&& 0x3C ≠ 0x34)
    (h38 : decoded_word inst s &&& 0x3C ≠ 0x38)
    (h3C : decoded_word inst s &&& 0x3C ≠ 0x3C) :
    cycle inst s =
      { (if s.m_inst_repeat then s else fetch inst s) with m_icount := s.m_icount - 1 } ∧
    (s.m_inst_repeat = true → cycle inst s = { s with m_icount := s.m_icount - 1 }) ∧
    (cycle inst s).m_cntr = s.m_cntr ∧ (cycle inst s).m_sr = s.m_sr ∧
    (cycle inst s).m_spar = s.m_spar ∧ (cycle inst s).m_bar = s.m_bar ∧
    (cycle inst s).m_crc = s.m_crc ∧ (cycle inst s).m_flag = s.m_flag ∧
    (cycle inst s).m_inst_disable = s.m_inst_disable ∧
    (cycle inst s).m_inst_repeat = s.m_inst_repeat ∧
    (cycle inst s).m_br_condition = s.m_br_condition ∧
    (cycle inst s).sp = s.sp ∧
    (cycle inst s).m_icount = s.m_icount - 1 := by
  have hw := fetch_decode_word inst s
  have hdec : decode inst (if !s.m_inst_repeat then fetch inst s else s) =
      (if !s.m_inst_repeat then fetch inst s else s) :=
    decode_unimplemented inst _ (by rw [hw]; exact h6) (by rw [hw]; exact h7)
      (by rw [hw]; exact h24) (by rw [hw]; exact h30) (by rw [hw]; exact h34)
      (by rw [hw]; exact h38) (by rw [hw]; exact h3C)
  have hcyc : cycle inst s =
      { (if s.m_inst_repeat then s else fetch inst s) with m_icount := s.m_icount - 1 } := by
    simp only [cycle, fetch_decode, hd, Bool.false_eq_true, if_false, hdec]
    cases hr : s.m_inst_repeat <;> simp [fetch]
  refine ⟨hcyc, ?_, ?_⟩
  · intro hr
    rw [hcyc]
    simp [hr]
  · rw [hcyc]
    cases hr : s.m_inst_repeat <;> simp [fetch, hr]

/-- C8 witness: the reset state over a program of zero bytes. -/
theorem unimplemented_noop_witness :
    State.init.m_inst_disable = false ∧
    decoded_word (const_program 0) State.init = 0 ∧
    (cycle (const_program 0) State.init).m_cntr = State.init.m_cntr ∧
    (cycle (const_program 0) State.init).m_icount = State.init.m_icount - 1 :=
  have h := unimplemented_noop (const_program 0) State.init rfl (by decide) (by decide)
    (by decide) (by decide) (by decide) (by decide) (by decide)
  ⟨rfl, by decide, h.2.2.1, h.2.2.2.2.2.2.2.2.2.2.2.2⟩

/-- C9. Condition evaluator mapping: on the field `MB & 0x3C`, `test_condition`
returns bit 7 of SR for `0x10`, `CNTR == 255` for `0x14`, bit 0 of CRC for `0x18`,
Flag for `0x3C`, and true for every other field value; the field is one of the
sixteen multiples of four up to `0x3C`, which leaves twelve such values.  The
evaluator is a function of the state into `Bool`: it returns no state. -/
theorem condition_evaluator (s : State) :
    (s.m_mb &&& 0x3C = 0x10 → test_condition s = BIT s.m_sr 7) ∧
    (s.m_mb &&& 0x3C = 0x14 → test_condition s = (s.m_cntr == 255)) ∧
    (s.m_mb &&& 0x3C = 0x18 → test_condition s = BIT s.m_crc 0) ∧
    (s.m_mb &&& 0x3C = 0x3C → test_condition s = s.m_flag) ∧
    (s.m_mb &&& 0x3C ≠ 0x10 → s.m_mb &&& 0x3C ≠ 0x14 → s.m_mb &&& 0x3C ≠ 0x18 →
      s.m_mb &&& 0x3C ≠ 0x3C → test_condition s = true) ∧
    (s.m_mb &&& 0x3C) % 4 = 0 ∧ s.m_mb &&& 0x3C ≤ 0x3C := by
  refine ⟨?_, ?_, ?_, ?_, ?_, ?_, Nat.and_le_right⟩
  · intro h
    have h' : s.m_mb &&& 60 = 16 := h
    simp [test_condition, h']
  · intro h
    have h' : s.m_mb &&& 60 = 20 := h
    simp [test_condition, h']
  · intro h
    have h' : s.m_mb &&& 60 = 24 := h
    simp [test_condition, h']
  · intro h
    have h' : s.m_mb &&& 60 = 60 := h
    simp [test_condition, h']
  · intro h1 h2 h3 h4
    have h1' : ¬ (s.m_mb &&& 60 = 16) := h1
    have h2' : ¬ (s.m_mb &&& 60 = 20) := h2
    have h3' : ¬ (s.m_mb &&& 60 = 24) := h3
    have h4' : ¬ (s.m_mb &&& 60 = 60) := h4
    simp [test_condition, h1', h2', h3', h4']
  · have h := and_74 s.m_mb
    have h' : s.m_mb &&& 0x3C = (s.m_mb / 4 % 16) * 4 := h
    omega

/-- C9 witness: one state for each row of the mapping; the four selected signals
are asserted in `condition_state`, and field `0x1C` is one of the twelve others. -/
theorem condition_evaluator_witness :
    test_condition (condition_state 0x10) = BIT (condition_state 0x10).m_sr 7 ∧
    test_condition (condition_state 0x14) = ((condition_state 0x14).m_cntr == 255) ∧
    test_condition (condition_state 0x18) = BIT (condition_state 0x18).m_crc 0 ∧
    test_condition (condition_state 0x3C) = (condition_state 0x3C).m_flag ∧
    test_condition { condition_state 0x1C with m_flag := false } = true :=
  ⟨(condition_evaluator (condition_state 0x10)).1 (by decide),
    (condition_evaluator (condition_state 0x14)).2.1 (by decide),
    (condition_evaluator (condition_state 0x18)).2.2.1 (by decide),
    (condition_evaluator (condition_state 0x3C)).2.2.2.1 (by decide),
    (condition_evaluator { condition_state 0x1C with m_flag := false }).2.2.2.2.1
      (by decide) (by decide) (by decide) (by decide)⟩

/-- C10. Scratchpad round trip: a fetch/decode cycle that decodes a control word
with bits 6 and 7 clear and field `0x34` in a state with `SPAR = a` and `SR = v`
(a byte) leaves cell `a` holding `v` and every other cell unchanged; and in any
state reached later by cycles none of which stores to cell `a`, if `SPAR == a` and
bit 0 of MB is set, the multiplexer returns `v`. -/
theorem scratchpad_round_trip (inst : Nat → Nat) (s : State)
    (hd : s.m_inst_disable = false)
    (h6 : BIT (decoded_word inst s) 6 = false)
    (h7 : BIT (decoded_word inst s) 7 = false)
    (hf : decoded_word inst s &&& 0x3C = 0x34)
    (hv : s.m_sr < 256) :
    read_byte (cycle inst s).sp s.m_spar = s.m_sr ∧
    (∀ b, b ≠ s.m_spar → (cycle inst s).sp b = s.sp b) ∧
    ∀ n, (∀ i, i < n → stores_to inst (cycles inst i (cycle inst s)) s.m_spar = false) →
      (cycles inst n (cycle inst s)).m_spar = s.m_spar →
      BIT (cycles inst n (cycle inst s)).m_mb 0 = true →
      mux_out inst (cycles inst n (cycle inst s)) = s.m_sr := by
  have hw := fetch_decode_word inst s
  have hsp : (if !s.m_inst_repeat then fetch inst s else s).sp = s.sp := by
    cases hr : s.m_inst_repeat <;> simp [fetch, hr]
  have hspar : (if !s.m_inst_repeat then fetch inst s else s).m_spar = s.m_spar := by
    cases hr : s.m_inst_repeat <;> simp [fetch, hr]
  have hsr : (if !s.m_inst_repeat then fetch inst s else s).m_sr = s.m_sr := by
    cases hr : s.m_inst_repeat <;> simp [fetch, hr]
  have hcyc : (cycle inst s).sp = write_byte s.sp s.m_spar s.m_sr := by
    have e : (cycle inst s).sp =
        (decode inst (if !s.m_inst_repeat then fetch inst s else s)).sp := by
      simp [cycle, fetch_decode, hd]
    have hf' : decoded_word inst s &&& 0o74 = 0o64 := hf
    rw [e, decode_sp, hw, hsp, hspar, hsr, if_pos ⟨h6, h7, hf'⟩]
  have hcell : read_byte (cycle inst s).sp s.m_spar = s.m_sr := by
    rw [hcyc]
    simp only [read_byte, write_byte, if_true]
    omega
  refine ⟨hcell, ?_, ?_⟩
  · intro b hb
    rw [hcyc]
    simp [write_byte, hb]
  · intro n hns hspar' hbit
    have hkeep := cycles_sp_of_not_store inst s.m_spar n (cycle inst s) hns
    have hmux : mux_out inst (cycles inst n (cycle inst s)) =
        read_byte (cycles inst n (cycle inst s)).sp s.m_spar := by
      simp [mux_out, hbit, hspar']
    rw [hmux]
    simp only [read_byte] at hcell ⊢
    rw [hkeep]
    exact hcell

/-- C10 witness: `0x5A` is stored to cell 3 and read back one cycle later through
the multiplexer of a scratchpad-sourced counter load. -/
theorem scratchpad_round_trip_witness :
    store_state.m_inst_disable = false ∧
    decoded_word store_load_program store_state &&& 0x3C = 0x34 ∧
    store_state.m_sr < 256 ∧
    read_byte (cycle store_load_program store_state).sp 3 = 0x5A ∧
    (∀ i, i < 1 →
      stores_to store_load_program
        (cycles store_load_program i (cycle store_load_program store_state))
        store_state.m_spar = false) ∧
    mux_out store_load_program
      (cycles store_load_program 1 (cycle store_load_program store_state)) = 0x5A :=
  have h := scratchpad_round_trip store_load_program store_state rfl (by decide)
    (by decide) (by decide) (by decide)
  have hns : ∀ i, i < 1 →
      stores_to store_load_program
        (cycles store_load_program i (cycle store_load_program store_state))
        store_state.m_spar = false := by
    decide
  ⟨rfl, by decide, by decide, h.1, hns, h.2.2 1 hns (by decide) (by decide)⟩

/-- The condition evaluator reads `m_mb`, `m_sr`, `m_cntr`, `m_crc` and `m_flag`
only, so after a fetch it sees the registers of before the cycle and the new word. -/
theorem test_condition_fetch_decode (inst : Nat → Nat) (s : State) :
    test_condition (if !s.m_inst_repeat then fetch inst s else s) =
      test_condition { s with m_mb := decoded_word inst s } := by
  cases hr : s.m_inst_repeat <;> simp [test_condition, fetch, decoded_word, hr]

/-- The budget after one loop iteration. -/
theorem cycle_icount (inst : Nat → Nat) (s : State) :
    (cycle inst s).m_icount = s.m_icount - 1 := by
  have hdec : ∀ t : State, (decode inst t).m_icount = t.m_icount := by
    intro t
    unfold decode
    repeat' split
    all_goals rfl
  cases hd : s.m_inst_disable
  · cases hr : s.m_inst_repeat <;> simp [cycle, fetch_decode, hd, hr, hdec, fetch]
  · simp [cycle, deferred_update, hd]

/-- With enough fuel the loop runs exactly as many iterations as the budget says. -/
theorem execute_loop_eq_cycles (inst : Nat → Nat) (k : Nat) :
    ∀ (fuel : Nat) (s : State), s.m_icount = (k : Int) → k ≤ fuel →
      execute_loop inst fuel s = cycles inst k s := by
  induction k with
  | zero =>
    intro fuel s hs _
    have hnot : ¬ (s.m_icount > 0) := by rw [hs]; decide
    cases fuel with
    | zero => rfl
    | succ f => simp [execute_loop, cycles, hnot]
  | succ j ih =>
    intro fuel s hs hle
    cases fuel with
    | zero => omega
    | succ f =>
      have hpos : s.m_icount > 0 := by rw [hs]; omega
      have hnext : (cycle inst s).m_icount = (j : Int) := by
        rw [cycle_icount, hs]
        omega
      simp only [execute_loop, hpos, if_true, cycles]
      exact ih f (cycle inst s) hnext (by omega)

/-- The budget after `k` loop iterations. -/
theorem cycles_icount (inst : Nat → Nat) (k : Nat) :
    ∀ s : State, (cycles inst k s).m_icount = s.m_icount - k := by
  induction k with
  | zero => intro s; simp [cycles]
  | succ j ih =>
    intro s
    rw [cycles_succ, ih, cycle_icount]
    omega

/-- The decode of a conditional-loop word (bits 6 and 7 set, lines 166-172). -/
theorem decode_loop (inst : Nat → Nat) (t : State)
    (h6 : BIT t.m_mb 6 = true) (h7 : BIT t.m_mb 7 = true) :
    decode inst t =
      { t with
        m_br_condition := (test_condition t == BIT t.m_mb 1)
        m_inst_disable := (t.m_cntr == 0o377) || (test_condition t == BIT t.m_mb 1)
        m_inst_repeat := (t.m_cntr != 0o377) && !(test_condition t == BIT t.m_mb 1)
        m_cntr := (t.m_cntr + 1) % 256 } := by
  simp only [decode, h6, h7, if_true]

/-- C11. Conditional loop form decode: when a fetch/decode cycle decodes a control
word `MB` with bits 6 and 7 both set, with `c` the counter before the cycle and
`t = (evaluate(MB & 0x3C) == bit1(MB))` on the registers before the cycle, afterwards
the stored branch-taken flag is `t`, `InstDisable == (c == 255 or t)`,
`InstRepeat == (c != 255 and not t)` and `CNTR == (c + 1) mod 256`, which is 0 for
`c = 255`. -/
theorem conditional_loop_decode (inst : Nat → Nat) (s : State)
    (hd : s.m_inst_disable = false)
    (h6 : BIT (decoded_word inst s) 6 = true)
    (h7 : BIT (decoded_word inst s) 7 = true) :
    (cycle inst s).m_br_condition =
      (test_condition { s with m_mb := decoded_word inst s } ==
        BIT (decoded_word inst s) 1) ∧
    (cycle inst s).m_inst_disable =
      ((s.m_cntr == 255) ||
        (test_condition { s with m_mb := decoded_word inst s } ==
          BIT (decoded_word inst s) 1)) ∧
    (cycle inst s).m_inst_repeat =
      ((s.m_cntr != 255) &&
        !(test_condition { s with m_mb := decoded_word inst s } ==
          BIT (decoded_word inst s) 1)) ∧
    (cycle inst s).m_cntr = (s.m_cntr + 1) % 256 ∧
    (s.m_cntr = 255 → (cycle inst s).m_cntr = 0) := by
  have hw := fetch_decode_word inst s
  have ht := test_condition_fetch_decode inst s
  have hc : (if !s.m_inst_repeat then fetch inst s else s).m_cntr = s.m_cntr := by
    cases hr : s.m_inst_repeat <;> simp [fetch, hr]
  have h6' : BIT (if !s.m_inst_repeat then fetch inst s else s).m_mb 6 = true := by
    rw [hw]; exact h6
  have h7' : BIT (if !s.m_inst_repeat then fetch inst s else s).m_mb 7 = true := by
    rw [hw]; exact h7
  have hdec := decode_loop inst (if !s.m_inst_repeat then fetch inst s else s) h6' h7'
  have hbr : (cycle inst s).m_br_condition =
      (decode inst (if !s.m_inst_repeat then fetch inst s else s)).m_br_condition := by
    simp [cycle, fetch_decode, hd]
  have hdis : (cycle inst s).m_inst_disable =
      (decode inst (if !s.m_inst_repeat then fetch inst s else s)).m_inst_disable := by
    simp [cycle, fetch_decode, hd]
  have hrep : (cycle inst s).m_inst_repeat =
      (decode inst (if !s.m_inst_repeat then fetch inst s else s)).m_inst_repeat := by
    simp [cycle, fetch_decode, hd]
  have hcn : (cycle inst s).m_cntr =
      (decode inst (if !s.m_inst_repeat then fetch inst s else s)).m_cntr := by
    simp [cycle, fetch_decode, hd]
  rw [hbr, hdis, hrep, hcn, hdec]
  dsimp only
  rw [ht, hw, hc]
  refine ⟨rfl, rfl, rfl, rfl, ?_⟩
  intro h255
  rw [h255]

/-- C11 witness: the reset state decoding the loop word `0xC0`, whose condition
field is unimplemented (evaluates true) and whose polarity bit is clear. -/
theorem conditional_loop_decode_witness :
    State.init.m_inst_disable = false ∧
    BIT (decoded_word (const_program 0xC0) State.init) 6 = true ∧
    BIT (decoded_word (const_program 0xC0) State.init) 7 = true ∧
    (cycle (const_program 0xC0) State.init).m_inst_repeat = true ∧
    (cycle (const_program 0xC0) State.init).m_cntr = 1 :=
  have h := conditional_loop_decode (const_program 0xC0) State.init rfl (by decide)
    (by decide)
  ⟨rfl, by decide, by decide, h.2.2.1.trans (by decide), h.2.2.2.1.trans (by decide)⟩

/-- C12. Cycle budget: `execute_run` entered with a budget `n <= 0` leaves every
register and scratchpad cell unchanged; entered with `n > 0` it yields exactly `n`
successive applications of the loop body, one budget unit per cycle whichever arm
the cycle takes, and the remaining budget is 0.  The loop stops on its own test:
any fuel of at least `n` gives the same state. -/
theorem cycle_budget (inst : Nat → Nat) (s : State) :
    (s.m_icount ≤ 0 → execute_run inst s = s) ∧
    (0 < s.m_icount →
      execute_run inst s = cycles inst s.m_icount.toNat s ∧
      (execute_run inst s).m_icount = 0) ∧
    (∀ fuel, s.m_icount.toNat ≤ fuel → execute_loop inst fuel s = execute_run inst s) := by
  have hstop : s.m_icount ≤ 0 → ∀ fuel, execute_loop inst fuel s = s := by
    intro hle fuel
    have hnot : ¬ (s.m_icount > 0) := by omega
    cases fuel with
    | zero => rfl
    | succ f => simp [execute_loop, hnot]
  refine ⟨?_, ?_, ?_⟩
  · intro hle
    exact hstop hle _
  · intro hpos
    have hk : s.m_icount = ((s.m_icount.toNat : Nat) : Int) :=
      (Int.toNat_of_nonneg (le_of_lt hpos)).symm
    have hrun : execute_run inst s = cycles inst s.m_icount.toNat s :=
      execute_loop_eq_cycles inst s.m_icount.toNat s.m_icount.toNat s hk (le_refl _)
    refine ⟨hrun, ?_⟩
    rw [hrun, cycles_icount]
    omega
  · intro fuel hfuel
    by_cases hpos : 0 < s.m_icount
    · have hk : s.m_icount = ((s.m_icount.toNat : Nat) : Int) :=
        (Int.toNat_of_nonneg (le_of_lt hpos)).symm
      have h1 := execute_loop_eq_cycles inst s.m_icount.toNat fuel s hk hfuel
      have h2 := execute_loop_eq_cycles inst s.m_icount.toNat s.m_icount.toNat s hk
        (le_refl _)
      unfold execute_run
      rw [h1, h2]
    · have hle : s.m_icount ≤ 0 := by omega
      unfold execute_run
      rw [hstop hle fuel, hstop hle _]

/-- C12 witness: a budget of three over a program of zero bytes, and a budget of
zero. -/
theorem cycle_budget_witness :
    State.init.m_icount ≤ 0 ∧ execute_run (const_program 0) State.init = State.init ∧
    0 < budget_state.m_icount ∧
    execute_run (const_program 0) budget_state = cycles (const_program 0) 3 budget_state ∧
    (execute_run (const_program 0) budget_state).m_icount = 0 ∧
    (execute_run (const_program 0) budget_state).m_pc = 3 :=
  have h := (cycle_budget (const_program 0) budget_state).2.1 (by decide)
  ⟨by decide, (cycle_budget (const_program 0) State.init).1 (by decide), by decide,
    h.1, h.2, (congrArg State.m_pc h.1).trans (by decide)⟩

/-- C13. Shift-register load: when a fetch/decode cycle decodes a control word with
bits 6 and 7 clear, field `0x3C` and low two bits `0b01`, SR after the cycle is the
counter value of before the cycle, whatever SR held, and the counter is unchanged. -/
theorem shift_register_load (inst : Nat → Nat) (s : State)
    (hd : s.m_inst_disable = false)
    (h6 : BIT (decoded_word inst s) 6 = false)
    (h7 : BIT (decoded_word inst s) 7 = false)
    (hf : decoded_word inst s &&& 0x3C = 0x3C)
    (hlow : decoded_word inst s &&& 3 = 1) :
    (cycle inst s).m_sr = s.m_cntr ∧ (cycle inst s).m_cntr = s.m_cntr := by
  have hf2 : decoded_word inst s &&& 60 = 60 := hf
  cases hr : s.m_inst_repeat
  · simp [decoded_word, hr] at h6 h7 hf2 hlow
    simp [cycle, fetch_decode, fetch, decode, hd, hr, h6, h7, hf2, hlow]
  · simp [decoded_word, hr] at h6 h7 hf2 hlow
    simp [cycle, fetch_decode, fetch, decode, hd, hr, h6, h7, hf2, hlow]

/-- C13 witness: `0x3D` loads the counter value `0x42` over the shift register. -/
theorem shift_register_load_witness :
    load_state.m_inst_disable = false ∧
    decoded_word (const_program 0x3D) load_state &&& 0x3C = 0x3C ∧
    decoded_word (const_program 0x3D) load_state &&& 3 = 1 ∧
    (cycle (const_program 0x3D) load_state).m_sr = 0x42 ∧
    (cycle (const_program 0x3D) load_state).m_cntr = 0x42 :=
  have h := shift_register_load (const_program 0x3D) load_state rfl (by decide)
    (by decide) (by decide) (by decide)
  ⟨rfl, by decide, by decide, h.1, h.2⟩

/-- Shifting left by one and or-ing a single bit in is doubling and adding it. -/
theorem shl_or_bit (x b : Nat) (hb : b < 2) : (x <<< 1) ||| b = 2 * x + b := by
  have h := Nat.mul_add_lt_is_or (i := 1) (b := b) (by simpa using hb) x
  rw [Nat.shiftLeft_eq, Nat.mul_comm]
  simpa using h.symm

/-- C14. Simple branch over two cycles: from a state with both pipeline flags clear
whose program counter addresses a control word `MB` with bit 6 set and bit 7 clear,
with `PC1 = (PC0 + 1) & 0x7FF` and `t = (evaluate(MB & 0x3C) == bit1(MB))` on the
registers before the cycle, two cycles leave `PC == ((PC1 + 1) & 0x0F00) | B` when
`t` holds (`B` the multiplexed byte read with `PC = PC1`) and
`PC == (PC1 + 1) & 0x0FFF` when it does not; both pipeline flags are clear and CNTR,
SR, SPAR, BAR, Flag and the scratchpad are unchanged. -/
theorem simple_branch_two_cycles (inst : Nat → Nat) (s : State)
    (hd : s.m_inst_disable = false) (hr : s.m_inst_repeat = false)
    (h6 : BIT (read_byte inst s.m_pc) 6 = true)
    (h7 : BIT (read_byte inst s.m_pc) 7 = false) :
    ((test_condition { s with m_mb := read_byte inst s.m_pc } ==
        BIT (read_byte inst s.m_pc) 1) = true →
      (cycles inst 2 s).m_pc =
        ((((s.m_pc + 1) &&& 0x7FF) + 1) &&& 0x0F00) |||
          (if BIT (read_byte inst s.m_pc) 0 then read_byte s.sp s.m_spar
           else read_byte inst ((s.m_pc + 1) &&& 0x7FF))) ∧
    ((test_condition { s with m_mb := read_byte inst s.m_pc } ==
        BIT (read_byte inst s.m_pc) 1) = false →
      (cycles inst 2 s).m_pc = (((s.m_pc + 1) &&& 0x7FF) + 1) &&& 0x0FFF) ∧
    (cycles inst 2 s).m_inst_disable = false ∧
    (cycles inst 2 s).m_inst_repeat = false ∧
    (cycles inst 2 s).m_cntr = s.m_cntr ∧ (cycles inst 2 s).m_sr = s.m_sr ∧
    (cycles inst 2 s).m_spar = s.m_spar ∧ (cycles inst 2 s).m_bar = s.m_bar ∧
    (cycles inst 2 s).m_flag = s.m_flag ∧ (cycles inst 2 s).sp = s.sp := by
  have hj : ¬ (read_byte inst s.m_pc &&& 194 = 130) := not_jump_of_bit6 h6
  have hfirst : cycle inst s =
      { s with
        m_ppc := s.m_pc
        m_mb := read_byte inst s.m_pc
        m_pc := (s.m_pc + 1) &&& 0x7FF
        m_br_condition :=
          (test_condition { s with m_mb := read_byte inst s.m_pc } ==
            BIT (read_byte inst s.m_pc) 1)
        m_inst_disable := true
        m_icount := s.m_icount - 1 } := by
    simp [cycle, fetch_decode, fetch, decode, hd, hr, h6, h7, test_condition]
  simp only [cycles]
  rw [hfirst]
  refine ⟨?_, ?_, ?_, ?_, ?_, ?_, ?_, ?_, ?_, ?_⟩
  · intro ht
    simp [cycle, deferred_update, mux_out, h6, hj, ht]
  · intro ht
    simp [cycle, deferred_update, mux_out, h6, hj, ht]
  all_goals simp [cycle, deferred_update, hr]

/-- C14 witness: from reset over a program of bytes `0x42` (branch on an
unimplemented condition, polarity bit set, so taken) two cycles give `PC = 0x42`. -/
theorem simple_branch_two_cycles_witness :
    State.init.m_inst_disable = false ∧ State.init.m_inst_repeat = false ∧
    BIT (read_byte (const_program 0x42) State.init.m_pc) 6 = true ∧
    BIT (read_byte (const_program 0x42) State.init.m_pc) 7 = false ∧
    (cycles (const_program 0x42) 2 State.init).m_pc = 0x42 ∧
    (cycles (const_program 0x40) 2 State.init).m_pc = 2 :=
  ⟨rfl, rfl, by decide, by decide,
    ((simple_branch_two_cycles (const_program 0x42) State.init rfl rfl (by decide)
      (by decide)).1 (by decide)).trans (by decide),
    ((simple_branch_two_cycles (const_program 0x40) State.init rfl rfl (by decide)
      (by decide)).2.1 (by decide)).trans (by decide)⟩

/-- The decode never writes the cycle budget. -/
theorem decode_icount (inst : Nat → Nat) (t : State) :
    (decode inst t).m_icount = t.m_icount := by
  unfold decode
  repeat' split
  all_goals rfl

/-- A cycle entered with `m_inst_disable` clear is the decode of the fetched (or
held) word, followed by the budget decrement. -/
theorem cycle_of_fetch_decode (inst : Nat → Nat) (s : State)
    (hd : s.m_inst_disable = false) :
    cycle inst s =
      { decode inst (if !s.m_inst_repeat then fetch inst s else s) with
        m_icount := s.m_icount - 1 } := by
  have hi : (if !s.m_inst_repeat then fetch inst s else s).m_icount = s.m_icount := by
    cases hr : s.m_inst_repeat <;> simp [fetch, hr]
  simp only [cycle, fetch_decode, hd, Bool.false_eq_true, if_false, decode_icount, hi]

/-- A cycle entered with `m_inst_disable` set is the deferred update, followed by
the budget decrement. -/
theorem cycle_of_deferred (inst : Nat → Nat) (s : State)
    (hd : s.m_inst_disable = true) :
    cycle inst s = { deferred_update inst s with m_icount := s.m_icount - 1 } := by
  simp [cycle, deferred_update, hd]

/-- The decode of a counter operation (case 070, lines 200-206). -/
theorem decode_counter (inst : Nat → Nat) (t : State)
    (h6 : BIT t.m_mb 6 = false) (h7 : BIT t.m_mb 7 = false)
    (hf : t.m_mb &&& 0o74 = 0o70) :
    decode inst t =
      { t with
        m_cntr := if BIT t.m_mb 1 then (t.m_cntr + 1) % 256 else mux_out inst t
        m_inst_disable := !BIT t.m_mb 0 } := by
  simp [decode, h6, h7, hf]

/-- C15. Counter operation: when a fetch/decode cycle decodes a control word with
bits 6 and 7 clear and field `0x38`, afterwards `CNTR == (CNTR + 1) mod 256` when
bit 1 is set, otherwise CNTR is the multiplexed byte (the scratchpad cell at SPAR
when bit 0 is set, the instruction byte at the already-advanced PC when it is
clear), and `InstDisable == not bit0(MB)`.  An immediate load (bits 0 and 1 clear)
fetched at `PC0` therefore leaves, after two cycles,
`CNTR == InstructionStore[(PC0 + 1) & 0x7FF]` and
`PC == (((PC0 + 1) & 0x7FF) + 1) & 0x0FFF`: the second cycle is a deferred update
that steps over the operand byte. -/
theorem counter_operation (inst : Nat → Nat) (s : State)
    (hd : s.m_inst_disable = false)
    (h6 : BIT (decoded_word inst s) 6 = false)
    (h7 : BIT (decoded_word inst s) 7 = false)
    (hf : decoded_word inst s &&& 0x3C = 0x38) :
    (BIT (decoded_word inst s) 1 = true → (cycle inst s).m_cntr = (s.m_cntr + 1) % 256) ∧
    (BIT (decoded_word inst s) 1 = false → BIT (decoded_word inst s) 0 = true →
      (cycle inst s).m_cntr = read_byte s.sp s.m_spar) ∧
    (BIT (decoded_word inst s) 1 = false → BIT (decoded_word inst s) 0 = false →
      (cycle inst s).m_cntr =
        read_byte inst (if s.m_inst_repeat then s.m_pc else (s.m_pc + 1) &&& 0x7FF)) ∧
    (cycle inst s).m_inst_disable = !BIT (decoded_word inst s) 0 ∧
    (s.m_inst_repeat = false → BIT (decoded_word inst s) 1 = false →
      BIT (decoded_word inst s) 0 = false →
      (cycles inst 2 s).m_cntr = read_byte inst ((s.m_pc + 1) &&& 0x7FF) ∧
      (cycles inst 2 s).m_pc = (((s.m_pc + 1) &&& 0x7FF) + 1) &&& 0x0FFF) := by
  have hw := fetch_decode_word inst s
  have hf2 : (if !s.m_inst_repeat then fetch inst s else s).m_mb &&& 0o74 = 0o70 := by
    rw [hw]; exact hf
  have hdec := decode_counter inst (if !s.m_inst_repeat then fetch inst s else s)
    (by rw [hw]; exact h6) (by rw [hw]; exact h7) hf2
  have hcyc := cycle_of_fetch_decode inst s hd
  rw [hdec] at hcyc
  have hcn : (cycle inst s).m_cntr =
      if BIT (decoded_word inst s) 1 then (s.m_cntr + 1) % 256
      else if BIT (decoded_word inst s) 0 then read_byte s.sp s.m_spar
      else read_byte inst (if s.m_inst_repeat then s.m_pc else (s.m_pc + 1) &&& 0x7FF) := by
    rw [hcyc]
    cases hr : s.m_inst_repeat <;> simp [decoded_word, fetch, mux_out, hr]
  have hdis : (cycle inst s).m_inst_disable = !BIT (decoded_word inst s) 0 := by
    rw [hcyc]
    cases hr : s.m_inst_repeat <;> simp [decoded_word, fetch, hr]
  refine ⟨?_, ?_, ?_, hdis, ?_⟩
  · intro h1
    rw [hcn]
    simp [h1]
  · intro h1 h0
    rw [hcn]
    simp [h1, h0]
  · intro h1 h0
    rw [hcn]
    simp [h1, h0]
  · intro hr h1 h0
    have hmb : (cycle inst s).m_mb = decoded_word inst s := by
      rw [hcyc]
      simp [decoded_word, fetch, hr]
    have hpc : (cycle inst s).m_pc = (s.m_pc + 1) &&& 0x7FF := by
      rw [hcyc]
      simp [fetch, hr]
    have hdis1 : (cycle inst s).m_inst_disable = true := by
      rw [hdis, h0]
      rfl
    have hcn1 : (cycle inst s).m_cntr = read_byte inst ((s.m_pc + 1) &&& 0x7FF) := by
      rw [hcn]
      simp [h1, h0, hr]
    have hnj : ¬ ((cycle inst s).m_mb &&& 0o302 = 0o202) := by
      intro hj
      have hb := bit_of_and_eq hj 7 (by decide)
      rw [hmb, h7] at hb
      exact absurd hb (by decide)
    have hnj2 : ¬ ((cycle inst s).m_mb &&& 194 = 130) := hnj
    have hb6 : BIT (cycle inst s).m_mb 6 = false := by rw [hmb]; exact h6
    have key : ∀ t : State, t.m_inst_disable = true → BIT t.m_mb 6 = false →
        ¬ (t.m_mb &&& 194 = 130) →
        (cycle inst t).m_cntr = t.m_cntr ∧ (cycle inst t).m_pc = (t.m_pc + 1) &&& 0x0FFF := by
      intro t k1 k2 k3
      rw [cycle_of_deferred inst t k1]
      simp [deferred_update, k2, k3]
    obtain ⟨k1, k2⟩ := key (cycle inst s) hdis1 hb6 hnj2
    simp only [cycles]
    exact ⟨k1.trans hcn1, by rw [k2, hpc]⟩

/-- C15 witness: the immediate load `0x38` at address 0 with operand `0x77`. -/
theorem counter_operation_witness :
    State.init.m_inst_disable = false ∧
    decoded_word counter_load_program State.init &&& 0x3C = 0x38 ∧
    (cycle counter_load_program State.init).m_cntr = 0x77 ∧
    (cycles counter_load_program 2 State.init).m_cntr = 0x77 ∧
    (cycles counter_load_program 2 State.init).m_pc = 2 :=
  have h := counter_operation counter_load_program State.init rfl (by decide)
    (by decide) (by decide)
  have h2 := h.2.2.2.2 rfl (by decide) (by decide)
  ⟨rfl, by decide, (h.2.2.1 (by decide) (by decide)).trans (by decide),
    h2.1.trans (by decide), h2.2.trans (by decide)⟩

/-- C16. Shift-register shift: when a fetch/decode cycle decodes a control word with
bits 6 and 7 clear, field `0x3C` and low two bits other than `0b01`, SR after the
cycle is `((SR * 2) mod 256) + s`, with `s` bit 1 of the word when bit 0 is clear
and 0 when bit 0 is set; the bit that leaves position 7 is dropped. -/
theorem shift_register_shift (inst : Nat → Nat) (s : State)
    (hd : s.m_inst_disable = false)
    (h6 : BIT (decoded_word inst s) 6 = false)
    (h7 : BIT (decoded_word inst s) 7 = false)
    (hf : decoded_word inst s &&& 0x3C = 0x3C)
    (hlow : decoded_word inst s &&& 3 ≠ 1) :
    (cycle inst s).m_sr =
      (s.m_sr * 2) % 256 +
        (if BIT (decoded_word inst s) 0 then 0 else (BIT (decoded_word inst s) 1).toNat) := by
  have hf2 : decoded_word inst s &&& 60 = 60 := hf
  have hb : (if BIT (decoded_word inst s) 0 then 0
      else (BIT (decoded_word inst s) 1).toNat) < 2 := by
    split
    · decide
    · cases BIT (decoded_word inst s) 1 <;> decide
  have hsr : (cycle inst s).m_sr =
      ((s.m_sr <<< 1) ||| (if BIT (decoded_word inst s) 0 then 0
        else (BIT (decoded_word inst s) 1).toNat)) % 256 := by
    cases hr : s.m_inst_repeat
    · simp [decoded_word, hr] at h6 h7 hf2 hlow ⊢
      simp [cycle, fetch_decode, fetch, decode, hd, hr, h6, h7, hf2, hlow]
    · simp [decoded_word, hr] at h6 h7 hf2 hlow ⊢
      simp [cycle, fetch_decode, fetch, decode, hd, hr, h6, h7, hf2, hlow]
  rw [hsr, shl_or_bit _ _ hb]
  omega

/-- C16 witness: `0x3E` shifts `0xC1` left and feeds a one in, giving `0x83`. -/
theorem shift_register_shift_witness :
    load_state.m_inst_disable = false ∧
    decoded_word (const_program 0x3E) load_state &&& 0x3C = 0x3C ∧
    decoded_word (const_program 0x3E) load_state &&& 3 ≠ 1 ∧
    (cycle (const_program 0x3E) load_state).m_sr = 0x83 :=
  ⟨rfl, by decide, by decide,
    (shift_register_shift (const_program 0x3E) load_state rfl (by decide) (by decide)
      (by decide) (by decide)).trans (by decide)⟩

/-- The decode never writes the held control word. -/
theorem decode_mb (inst : Nat → Nat) (t : State) : (decode inst t).m_mb = t.m_mb := by
  unfold decode
  repeat' split
  all_goals rfl

/-- The decode never writes the previous-PC shadow. -/
theorem decode_ppc (inst : Nat → Nat) (t : State) : (decode inst t).m_ppc = t.m_ppc := by
  unfold decode
  repeat' split
  all_goals rfl

/-- C17. Deferred-update frame: a cycle entered with InstDisable set changes only
PC, InstDisable, InstRepeat and the cycle budget: afterwards both flags are clear and
MB, PPC, CNTR, SR, SPAR, BAR, CRC, Flag, the stored branch-taken flag and every
scratchpad cell are unchanged, the budget being one less; and a repeat cycle
(InstDisable clear, InstRepeat set) leaves MB, PC and PPC unchanged. -/
theorem deferred_update_frame (inst : Nat → Nat) (s : State) :
    (s.m_inst_disable = true →
      (cycle inst s).m_inst_disable = false ∧ (cycle inst s).m_inst_repeat = false ∧
      (cycle inst s).m_mb = s.m_mb ∧ (cycle inst s).m_ppc = s.m_ppc ∧
      (cycle inst s).m_cntr = s.m_cntr ∧ (cycle inst s).m_sr = s.m_sr ∧
      (cycle inst s).m_spar = s.m_spar ∧ (cycle inst s).m_bar = s.m_bar ∧
      (cycle inst s).m_crc = s.m_crc ∧ (cycle inst s).m_flag = s.m_flag ∧
      (cycle inst s).m_br_condition = s.m_br_condition ∧ (cycle inst s).sp = s.sp ∧
      (cycle inst s).m_icount = s.m_icount - 1) ∧
    (s.m_inst_disable = false → s.m_inst_repeat = true →
      (cycle inst s).m_mb = s.m_mb ∧ (cycle inst s).m_pc = s.m_pc ∧
      (cycle inst s).m_ppc = s.m_ppc) := by
  constructor
  · intro hd
    rw [cycle_of_deferred inst s hd]
    exact ⟨rfl, rfl, rfl, rfl, rfl, rfl, rfl, rfl, rfl, rfl, rfl, rfl, rfl⟩
  · intro hd hr
    rw [cycle_of_fetch_decode inst s hd]
    simp [hr, decode_mb, decode_pc, decode_ppc]

/-- C17 witness: a pending taken branch, and a pending repeat. -/
theorem deferred_update_frame_witness :
    page_mid_state.m_inst_disable = true ∧
    (cycle (const_program 7) page_mid_state).m_inst_disable = false ∧
    (cycle (const_program 7) page_mid_state).m_mb = 0x40 ∧
    repeat_state.m_inst_disable = false ∧ repeat_state.m_inst_repeat = true ∧
    (cycle (const_program 7) repeat_state).m_pc = 9 :=
  have h1 := (deferred_update_frame (const_program 7) page_mid_state).1 rfl
  have h2 := (deferred_update_frame (const_program 7) repeat_state).2 rfl rfl
  ⟨rfl, h1.1, h1.2.2.1, rfl, rfl, h2.2.1⟩

/-- The decode of a conditional-loop word keeps the flags consistent. -/
theorem decode_flags_ok_of_loop (inst : Nat → Nat) (t : State)
    (h6 : BIT t.m_mb 6 = true) (h7 : BIT t.m_mb 7 = true) : flags_ok (decode inst t) := by
  rw [decode_loop inst t h6 h7]
  unfold flags_ok
  dsimp only
  refine ⟨?_, fun _ => ⟨h6, h7⟩⟩
  simp only [bne]
  generalize (t.m_cntr == 255) = a
  generalize (test_condition t == BIT t.m_mb 1) = b
  cases a <;> cases b <;> simp

/-- After a fetch no repeat is pending, and the decode then keeps the flags
consistent. -/
theorem decode_flags_ok_of_no_repeat (inst : Nat → Nat) (t : State)
    (hr : t.m_inst_repeat = false) : flags_ok (decode inst t) := by
  by_cases h6 : BIT t.m_mb 6 = true
  · by_cases h7 : BIT t.m_mb 7 = true
    · exact decode_flags_ok_of_loop inst t h6 h7
    · unfold flags_ok
      simp [decode, h6, h7, hr]
  · unfold flags_ok decode
    simp only [h6, if_false]
    repeat' split
    all_goals simp_all

/-- One loop iteration keeps the pipeline flags consistent. -/
theorem cycle_flags_ok (inst : Nat → Nat) (s : State) (h : flags_ok s) :
    flags_ok (cycle inst s) := by
  cases hd : s.m_inst_disable
  · have hdec : flags_ok (decode inst (if !s.m_inst_repeat then fetch inst s else s)) := by
      cases hr : s.m_inst_repeat
      · exact decode_flags_ok_of_no_repeat inst _ (by simp [fetch, hr])
      · have hb := h.2 hr
        simpa using decode_flags_ok_of_loop inst s hb.1 hb.2
    rw [cycle_of_fetch_decode inst s hd]
    exact hdec
  · rw [cycle_of_deferred inst s hd]
    unfold flags_ok deferred_update
    simp

/-- C19. Pipeline flags are mutually exclusive: in every state reached from a reset
state by any number of cycles, for every instruction store, InstDisable and
InstRepeat are not both set, and whenever InstRepeat is set the held MB has bits 6
and 7 both set; the engine is in exactly one of the three states deferred-update,
repeat, fetch. -/
theorem pipeline_flags_exclusive (inst : Nat → Nat) (s0 : State) (n : Nat) :
    ¬ ((cycles inst n (device_reset s0)).m_inst_disable = true ∧
       (cycles inst n (device_reset s0)).m_inst_repeat = true) ∧
    ((cycles inst n (device_reset s0)).m_inst_repeat = true →
      BIT (cycles inst n (device_reset s0)).m_mb 6 = true ∧
      BIT (cycles inst n (device_reset s0)).m_mb 7 = true) ∧
    (((cycles inst n (device_reset s0)).m_inst_disable = true ∧
        (cycles inst n (device_reset s0)).m_inst_repeat = false) ∨
      ((cycles inst n (device_reset s0)).m_inst_disable = false ∧
        (cycles inst n (device_reset s0)).m_inst_repeat = true) ∨
      ((cycles inst n (device_reset s0)).m_inst_disable = false ∧
        (cycles inst n (device_reset s0)).m_inst_repeat = false)) := by
  have hinv : flags_ok (cycles inst n (device_reset s0)) := by
    induction n with
    | zero =>
      unfold flags_ok
      simp [cycles, device_reset]
    | succ k ih =>
      rw [cycles_succ_outer]
      exact cycle_flags_ok inst _ ih
  obtain ⟨h1, h2⟩ := hinv
  refine ⟨?_, h2, ?_⟩
  · intro hboth
    have := h1 hboth.1
    rw [hboth.2] at this
    exact absurd this (by decide)
  · cases hd : (cycles inst n (device_reset s0)).m_inst_disable
    · cases hr : (cycles inst n (device_reset s0)).m_inst_repeat
      · exact Or.inr (Or.inr ⟨rfl, rfl⟩)
      · exact Or.inr (Or.inl ⟨rfl, rfl⟩)
    · exact Or.inl ⟨rfl, h1 hd⟩

/-- The decode maps states that agree outside `m_ppc` to states that agree outside
`m_ppc`. -/
theorem decode_agree (inst : Nat → Nat) (s t : State) (h : agree_except_ppc s t) :
    agree_except_ppc (decode inst s) (decode inst t) := by
  obtain ⟨hpc, hmb, hbr, hdis, hrep, hcn, hsr, hspar, hbar, hcrc, hfl, hsp⟩ := h
  have htc : test_condition t = test_condition s := by
    simp [test_condition, hmb, hsr, hcn, hcrc, hfl]
  have hmx : mux_out inst t = mux_out inst s := by
    simp [mux_out, hmb, hsp, hspar, hpc]
  have hmb' : t.m_mb = s.m_mb := hmb.symm
  unfold agree_except_ppc
  by_cases h6 : BIT s.m_mb 6 = true
  · by_cases h7 : BIT s.m_mb 7 = true
    · rw [decode_loop inst s h6 h7, decode_loop inst t (hmb' ▸ h6) (hmb' ▸ h7)]
      simp [htc, hmb', hpc, hcn, hsr, hspar, hbar, hcrc, hfl, hsp]
    · simp [decode, h6, h7, htc, hmb', hpc, hrep, hcn, hsr, hspar, hbar, hcrc, hfl, hsp]
  · by_cases h7 : BIT s.m_mb 7 = true
    · by_cases h1 : BIT s.m_mb 1 = true
      · simp [decode, h6, h7, h1, hmb', hpc, hbr, hrep, hcn, hsr, hspar, hbar, hcrc, hfl, hsp]
      · simp [decode, h6, h7, h1, hmb', hpc, hbr, hdis, hrep, hcn, hsr, hbar, hcrc, hfl, hsp]
    · by_cases h44 : s.m_mb &&& 0o74 = 0o44
      · have h44' : s.m_mb &&& 60 = 36 := h44
        by_cases h1 : BIT s.m_mb 1 = true
        · simp [decode, h6, h7, h44', h1, hmb', hpc, hbr, hdis, hrep, hcn, hsr, hspar, hbar,
            hcrc, hfl, hsp]
        · simp [decode, h6, h7, h44', h1, hmb', hpc, hbr, hdis, hrep, hcn, hsr, hspar,
            hcrc, hfl, hsp]
      · have h44' : ¬ (s.m_mb &&& 60 = 36) := h44
        by_cases h60 : s.m_mb &&& 60 = 48
        · simp [decode, h6, h7, h60, hmb', hpc, hbr, hdis, hrep, hcn, hsr, hspar, hbar,
            hcrc, hfl, hsp]
        · by_cases h64 : s.m_mb &&& 60 = 52
          · simp [decode, h6, h7, h64, hmb', hpc, hbr, hdis, hrep, hcn, hsr, hspar, hbar,
              hcrc, hfl, hsp]
          · by_cases h70 : s.m_mb &&& 60 = 56
            · simp [decode, h6, h7, h70, hmb', hmx, hpc, hbr, hrep, hcn, hsr, hspar, hbar,
                hcrc, hfl, hsp]
            · by_cases h74 : s.m_mb &&& 60 = 60
              · simp [decode, h6, h7, h74, hmb', hpc, hbr, hdis, hrep, hcn, hsr, hspar,
                  hbar, hcrc, hfl, hsp]
              · simp [decode, h6, h7, h44', h60, h64, h70, h74, hmb', hpc, hbr, hdis, hrep,
                  hcn, hsr, hspar, hbar, hcrc, hfl, hsp]

/-- The fetch maps states that agree outside `m_ppc` to states that agree outside
`m_ppc`. -/
theorem fetch_agree (inst : Nat → Nat) (s t : State) (h : agree_except_ppc s t) :
    agree_except_ppc (fetch inst s) (fetch inst t) := by
  obtain ⟨hpc, hmb, hbr, hdis, hrep, hcn, hsr, hspar, hbar, hcrc, hfl, hsp⟩ := h
  unfold agree_except_ppc fetch
  simp_all

/-- One loop iteration maps states that agree outside `m_ppc` to states that agree
outside `m_ppc`. -/
theorem cycle_agree (inst : Nat → Nat) (s t : State) (h : agree_except_ppc s t) :
    agree_except_ppc (cycle inst s) (cycle inst t) := by
  have hdis : t.m_inst_disable = s.m_inst_disable := h.2.2.2.1.symm
  have hrep : t.m_inst_repeat = s.m_inst_repeat := h.2.2.2.2.1.symm
  cases hd : s.m_inst_disable
  · have hdt : t.m_inst_disable = false := by rw [hdis, hd]
    have hin : agree_except_ppc (if !s.m_inst_repeat then fetch inst s else s)
        (if !t.m_inst_repeat then fetch inst t else t) := by
      rw [hrep]
      cases s.m_inst_repeat
      · simpa using fetch_agree inst s t h
      · simpa using h
    have hout := decode_agree inst _ _ hin
    rw [cycle_of_fetch_decode inst s hd, cycle_of_fetch_decode inst t hdt]
    exact hout
  · have hdt : t.m_inst_disable = true := by rw [hdis, hd]
    obtain ⟨hpc, hmb, hbr, _, _, hcn, hsr, hspar, hbar, hcrc, hfl, hsp⟩ := h
    have hmx : mux_out inst t = mux_out inst s := by
      simp [mux_out, hmb, hsp, hspar, hpc]
    rw [cycle_of_deferred inst s hd, cycle_of_deferred inst t hdt]
    unfold agree_except_ppc deferred_update
    simp_all

/-- C18. PPC is never read by logic: if two states agree on every register and
scratchpad cell except PPC, then for every instruction store the states after one
cycle, and after any number of cycles, agree on PC, MB, InstDisable, InstRepeat, the
stored branch-taken flag, CNTR, SR, SPAR, BAR, CRC, Flag and every scratchpad
cell. -/
theorem ppc_never_read (inst : Nat → Nat) (s t : State) (h : agree_except_ppc s t) :
    agree_except_ppc (cycle inst s) (cycle inst t) ∧
    ∀ n, agree_except_ppc (cycles inst n s) (cycles inst n t) := by
  refine ⟨cycle_agree inst s t h, ?_⟩
  intro n
  induction n with
  | zero => exact h
  | succ k ih =>
    rw [cycles_succ_outer, cycles_succ_outer]
    exact cycle_agree inst _ _ ih

/-- C18 witness: the reset state and a copy whose PPC is 5, run for three cycles
over the jump program. -/
theorem ppc_never_read_witness :
    State.init.m_ppc ≠ ppc_marked_state.m_ppc ∧
    agree_except_ppc State.init ppc_marked_state ∧
    (cycles jump_program 3 State.init).m_pc = (cycles jump_program 3 ppc_marked_state).m_pc :=
  have h : agree_except_ppc State.init ppc_marked_state :=
    ⟨rfl, rfl, rfl, rfl, rfl, rfl, rfl, rfl, rfl, rfl, rfl, rfl⟩
  ⟨by decide, h, ((ppc_never_read jump_program State.init ppc_marked_state h).2 3).1⟩

/-- The pipeline flags, counter and held word after the decode of a
conditional-loop word, in terms of one evaluation `b` of the branch test. -/
theorem cycle_loop_fields (inst : Nat → Nat) (s : State)
    (hd : s.m_inst_disable = false)
    (h6 : BIT (decoded_word inst s) 6 = true)
    (h7 : BIT (decoded_word inst s) 7 = true) :
    ∃ b : Bool,
      (cycle inst s).m_inst_disable = ((s.m_cntr == 255) || b) ∧
      (cycle inst s).m_inst_repeat = ((s.m_cntr != 255) && !b) ∧
      (cycle inst s).m_cntr = (s.m_cntr + 1) % 256 ∧
      (cycle inst s).m_mb = decoded_word inst s := by
  have hw := fetch_decode_word inst s
  have hc : (if !s.m_inst_repeat then fetch inst s else s).m_cntr = s.m_cntr := by
    cases hr : s.m_inst_repeat <;> simp [fetch, hr]
  have hdec := decode_loop inst (if !s.m_inst_repeat then fetch inst s else s)
    (by rw [hw]; exact h6) (by rw [hw]; exact h7)
  refine ⟨test_condition (if !s.m_inst_repeat then fetch inst s else s) ==
    BIT (if !s.m_inst_repeat then fetch inst s else s).m_mb 1, ?_⟩
  rw [cycle_of_fetch_decode inst s hd, hdec]
  dsimp only
  rw [hc, hw]
  exact ⟨rfl, rfl, rfl, rfl⟩

/-- A conditional loop entered with counter `255 - m` ends within `m + 1` cycles. -/
theorem loop_ends_within (inst : Nat → Nat) (m : Nat) :
    ∀ s : State, s.m_cntr + m = 255 → s.m_inst_disable = false →
      BIT (decoded_word inst s) 6 = true → BIT (decoded_word inst s) 7 = true →
      ∃ k, 1 ≤ k ∧ k ≤ m + 1 ∧
        (cycles inst k s).m_inst_disable = true ∧
        (cycles inst k s).m_inst_repeat = false ∧
        ∀ j, 1 ≤ j → j < k →
          (cycles inst j s).m_inst_repeat = true ∧
          (cycles inst j s).m_inst_disable = false := by
  induction m with
  | zero =>
    intro s hc hd h6 h7
    obtain ⟨b, hdis, hrep, _, _⟩ := cycle_loop_fields inst s hd h6 h7
    have hc255 : s.m_cntr = 255 := by omega
    refine ⟨1, le_refl 1, le_refl 1, ?_, ?_, ?_⟩
    · simp only [cycles]
      rw [hdis, hc255]
      rfl
    · simp only [cycles]
      rw [hrep, hc255]
      rfl
    · intro j hj1 hj2
      omega
  | succ m ih =>
    intro s hc hd h6 h7
    obtain ⟨b, hdis, hrep, hcn, hmb⟩ := cycle_loop_fields inst s hd h6 h7
    have hne : (s.m_cntr == 255) = false := by
      have : s.m_cntr ≠ 255 := by omega
      simpa using this
    have hne2 : (s.m_cntr != 255) = true := by
      simp only [bne, hne]
      rfl
    rw [hne, Bool.false_or] at hdis
    rw [hne2, Bool.true_and] at hrep
    cases b with
    | true =>
      refine ⟨1, le_refl 1, by omega, ?_, ?_, ?_⟩
      · simp only [cycles]
        exact hdis
      · simp only [cycles]
        rw [hrep]
        rfl
      · intro j hj1 hj2
        omega
    | false =>
      have hdis' : (cycle inst s).m_inst_disable = false := hdis
      have hrep' : (cycle inst s).m_inst_repeat = true := by
        rw [hrep]
        rfl
      have hword : decoded_word inst (cycle inst s) = decoded_word inst s := by
        simp only [decoded_word, hrep', if_true] at hmb ⊢
        exact hmb
      have hcnt : (cycle inst s).m_cntr + m = 255 := by
        rw [hcn]
        omega
      obtain ⟨k, hk1, hk2, hkd, hkr, hprev⟩ :=
        ih (cycle inst s) hcnt hdis' (by rw [hword]; exact h6) (by rw [hword]; exact h7)
      refine ⟨k + 1, by omega, by omega, ?_, ?_, ?_⟩
      · rw [cycles_succ]
        exact hkd
      · rw [cycles_succ]
        exact hkr
      · intro j hj1 hj2
        obtain ⟨i, rfl⟩ : ∃ i, j = i + 1 := ⟨j - 1, by omega⟩
        rw [cycles_succ]
        cases i with
        | zero => exact ⟨hrep', hdis'⟩
        | succ i' => exact hprev (i' + 1) (by omega) (by omega)

/-- C20. A conditional loop always ends: from a state with InstDisable clear whose
next decoded control word has bits 6 and 7 both set, with counter `c` (a byte),
there is a `k` with `1 <= k <= 256 - c` such that after `k` cycles InstDisable is
set and InstRepeat is clear, each of the first `k - 1` cycles having left InstRepeat
set and InstDisable clear; so the word is decoded at most 256 times in a row. -/
theorem conditional_loop_ends (inst : Nat → Nat) (s : State)
    (hd : s.m_inst_disable = false)
    (h6 : BIT (decoded_word inst s) 6 = true)
    (h7 : BIT (decoded_word inst s) 7 = true)
    (hc : s.m_cntr < 256) :
    ∃ k, 1 ≤ k ∧ k ≤ 256 - s.m_cntr ∧
      (cycles inst k s).m_inst_disable = true ∧
      (cycles inst k s).m_inst_repeat = false ∧
      ∀ j, 1 ≤ j → j < k →
        (cycles inst j s).m_inst_repeat = true ∧
        (cycles inst j s).m_inst_disable = false := by
  obtain ⟨k, hk1, hk2, hrest⟩ :=
    loop_ends_within inst (255 - s.m_cntr) s (by omega) hd h6 h7
  exact ⟨k, hk1, by omega, hrest⟩

/-- C20 witness: the loop word `0xC2` (unimplemented condition, polarity bit set)
ends after its first decode, from a counter of 0x42. -/
theorem conditional_loop_ends_witness :
    load_state.m_inst_disable = false ∧
    BIT (decoded_word (const_program 0xC2) load_state) 6 = true ∧
    BIT (decoded_word (const_program 0xC2) load_state) 7 = true ∧
    load_state.m_cntr < 256 ∧
    (cycles (const_program 0xC2) 1 load_state).m_inst_disable = true ∧
    ∃ k, 1 ≤ k ∧ k ≤ 256 - load_state.m_cntr ∧
      (cycles (const_program 0xC2) k load_state).m_inst_disable = true ∧
      (cycles (const_program 0xC2) k load_state).m_inst_repeat = false ∧
      ∀ j, 1 ≤ j → j < k →
        (cycles (const_program 0xC2) j load_state).m_inst_repeat = true ∧
        (cycles (const_program 0xC2) j load_state).m_inst_disable = false :=
  ⟨rfl, by decide, by decide, by decide, by decide,
    conditional_loop_ends (const_program 0xC2) load_state rfl (by decide) (by decide)
      (by decide)⟩

end RX01
